import Mathlib

/-!
Verification of the Cosik scheduling layer.

This file gives a shallow embedding of the two core modules of the
repository and proves the specification claims about them:

* `src/tasks/workflow_orchestrator.py` — namespace `Workflow`: task
  preparation, dependency leveling, the sequential / parallel / adaptive
  execution strategies and workflow result assembly.  Executor calls are
  modelled by an oracle `wexec : Nat → Nat → Bool` giving the success of
  each (task index, attempt) pair; `_execute_single_task` converts
  exceptions into failed results, so a boolean outcome is faithful.
  Timestamps, logging and the opaque per-task result payloads carry no
  claim content and are omitted.

* `src/tasks/task_queue.py` — namespace `Queue`: the persistent
  priority/dependency task queue with its driver loop `process_queue`.
  The asyncio concurrency is modelled as a small-step transition system:
  mutations between two `await` points are atomic, the driver loop is a
  small program-counter machine, and a spawned `execute_task` coroutine
  becomes a `pendingStarts` entry that performs its synchronous prefix
  (mark RUNNING, join the running set) in a later `start` step, exactly
  as `asyncio.create_task` defers the coroutine body.  Executor outcomes
  come from an oracle `exec : Nat → Nat → Outcome` indexed by task id and
  invocation number.
-/

set_option autoImplicit false

namespace Cosik

namespace Workflow

/-- Workflow-local task status (`TaskStatus` enum of
`workflow_orchestrator.py`). -/
inductive WStatus
  | pending
  | running
  | completed
  | failed
  | skipped
  | blocked
deriving DecidableEq, Repr

/-- A task definition as passed to `execute_workflow`: a dependency list
(of integer indices) and a description string. -/
structure WSpec where
  dependencies : List Nat := []
  description : String := ""
deriving DecidableEq, Repr

/-- A prepared workflow task (`_prepare_tasks` adds `index`, `status`,
`dependencies`, `retry_count`). -/
structure WTask where
  index : Nat
  dependencies : List Nat
  description : String
  retryCount : Nat
deriving DecidableEq, Repr

/-- `WorkflowOrchestrator._prepare_tasks`: number the specs by position. -/
def prepareTasks (specs : List WSpec) : List WTask :=
  specs.enum.map (fun p =>
    { index := p.1, dependencies := p.2.dependencies,
      description := p.2.description, retryCount := 0 })

/-- One scan of `_compute_dependency_levels`: the indices of tasks not yet
processed whose dependencies are all processed, in task order. -/
def passLevel (tasks : List WTask) (processed : List Nat) : List Nat :=
  (tasks.filter (fun t =>
      decide (t.index ∉ processed) &&
      t.dependencies.all (fun d => decide (d ∈ processed)))).map WTask.index

/-- The fallback of `_compute_dependency_levels`: when a scan finds no
qualifying task, all remaining unprocessed indices form the level. -/
def fallbackLevel (tasks : List WTask) (processed : List Nat) : List Nat :=
  (tasks.filter (fun t => decide (t.index ∉ processed))).map WTask.index

/-- `processed.update(level)` on the Python set, as a duplicate-free list. -/
def unionList (processed lvl : List Nat) : List Nat :=
  processed ++ (lvl.filter (fun i => decide (i ∉ processed))).dedup

/-- The `while len(processed) < len(tasks)` loop of
`_compute_dependency_levels`.  The loop always adds at least one new index
per pass when it terminates at all, so `tasks.length` passes of fuel are
enough; `none` models a run that the Python loop would never finish
(possible only for task lists with duplicate indices, which
`_prepare_tasks` never produces). -/
def levelsGo (tasks : List WTask) :
    Nat → List Nat → List (List Nat) → Option (List (List Nat))
  | 0, processed, acc =>
      if processed.length < tasks.length then none else some acc.reverse
  | fuel + 1, processed, acc =>
      if processed.length < tasks.length then
        let lvl0 := passLevel tasks processed
        let lvl := if lvl0.isEmpty then fallbackLevel tasks processed else lvl0
        levelsGo tasks fuel (unionList processed lvl) (lvl :: acc)
      else some acc.reverse

/-- `WorkflowOrchestrator._compute_dependency_levels`. -/
def computeDependencyLevels (tasks : List WTask) : Option (List (List Nat)) :=
  levelsGo tasks tasks.length [] []

/-- One pass of space splitting: `cur` holds the reversed current word. -/
def splitWordsGo : List Char → List Char → List String
  | [], cur => if cur.isEmpty then [] else [String.mk cur.reverse]
  | c :: rest, cur =>
      if c = ' ' then
        if cur.isEmpty then splitWordsGo rest []
        else String.mk cur.reverse :: splitWordsGo rest []
      else splitWordsGo rest (c :: cur)

/-- Whitespace word splitting used by the complexity heuristic
(`desc.split()`: runs of separators produce no empty words; the
preceding `.lower()` does not change word counts). -/
def splitWords (s : String) : List String :=
  splitWordsGo s.data []

/-! `_analyze_workflow` computes its average in Python floats (IEEE-754
binary64), so the embedding models a float as an integer significand
times a power of two — zero, or canonically `2^52 ≤ |m| < 2^53`, so that
structural equality is value equality — and every arithmetic result as
the exact result rounded to 53 significant bits, to nearest, ties to
even: the binary64 rule.  The magnitudes this program computes
(complexities, their sums and averages, small integer lengths) stay far
inside the normal double range, so overflow and subnormal rounding never
arise and the normal-range rounding rule below is exact for them. -/

/-- A binary64 value `m * 2^e`. -/
structure F64 where
  m : ℤ
  e : ℤ
deriving DecidableEq, Repr

/-- Rescale `num / den * 2^e` (value preserved) until `den ≤ num <
2*den`; the fuel covers the whole binary64 exponent range. -/
def f64Scale : Nat → Nat → Nat → ℤ → Nat × Nat × ℤ
  | 0, num, den, e => (num, den, e)
  | fuel + 1, num, den, e =>
      if num < den then f64Scale fuel (num * 2) den (e - 1)
      else if 2 * den ≤ num then f64Scale fuel num (den * 2) (e + 1)
      else (num, den, e)

/-- The binary64 value nearest the positive rational `num / den`: 53
significant bits, round to nearest, ties to even. -/
def f64OfPos (num den : Nat) : F64 :=
  let s := f64Scale 2200 num den 0
  let q : Nat := s.1 * 2 ^ 52 / s.2.1
  let r : Nat := s.1 * 2 ^ 52 % s.2.1
  let m : Nat := if 2 * r < s.2.1 then q
    else if s.2.1 < 2 * r then q + 1
    else if q % 2 = 0 then q else q + 1
  if m = 2 ^ 53 then { m := 2 ^ 52, e := s.2.2 - 51 }
  else { m := (m : ℤ), e := s.2.2 - 52 }

/-- The float `0.0` (also the value of the int `0`). -/
def F64.zero : F64 := { m := 0, e := 0 }

/-- Python int-to-float conversion (exact for the small lengths the
program divides by). -/
def F64.ofNat (n : Nat) : F64 :=
  if n = 0 then F64.zero else f64OfPos n 1

/-- Round the dyadic `M * 2^e` to binary64. -/
def f64OfDyadic (M : ℤ) (e : ℤ) : F64 :=
  if M = 0 then F64.zero
  else
    let f := f64OfPos M.natAbs 1
    if M < 0 then { m := -f.m, e := f.e + e } else { m := f.m, e := f.e + e }

/-- Float addition: the exact sum (a dyadic), rounded. -/
def F64.add (x y : F64) : F64 :=
  let e := if x.e ≤ y.e then x.e else y.e
  f64OfDyadic (x.m * 2 ^ (x.e - e).toNat + y.m * 2 ^ (y.e - e).toNat) e

/-- Float division: the exact quotient, rounded. -/
def F64.div (x y : F64) : F64 :=
  if x.m = 0 ∨ y.m = 0 then F64.zero
  else
    let f := f64OfPos x.m.natAbs y.m.natAbs
    let s : ℤ := if (x.m < 0 ∧ y.m < 0) ∨ (0 ≤ x.m ∧ 0 ≤ y.m) then 1 else -1
    { m := s * f.m, e := f.e + x.e - y.e }

/-- The exact float order `x < y` (float comparison is exact on
values). -/
def F64.lt (x y : F64) : Bool :=
  let e := if x.e ≤ y.e then x.e else y.e
  decide (x.m * 2 ^ (x.e - e).toNat < y.m * 2 ^ (y.e - e).toNat)

/-- The exact rational value of a float. -/
def F64.toRat (x : F64) : ℚ :=
  if 0 ≤ x.e then (x.m : ℚ) * 2 ^ x.e.toNat else (x.m : ℚ) / 2 ^ (-x.e).toNat

/-- Python `sum` on a float list (the initial `0` is exact). -/
def fsum (l : List F64) : F64 := l.foldl F64.add F64.zero

/-- The value of the Python float literal `0.3`. -/
def float03 : F64 := f64OfPos 3 10

/-- The value of the Python float literal `0.7`. -/
def float07 : F64 := f64OfPos 7 10

/-- Per-task complexity heuristic of `_analyze_workflow`:
`0.3 if len(desc.split()) <= 3 else 0.7`, the float literal values. -/
def taskComplexity (t : WTask) : F64 :=
  if (splitWords t.description).length ≤ 3 then float03 else float07

/-- The record returned by `_analyze_workflow`. -/
structure Analysis where
  hasDependencies : Bool
  taskCount : Nat
  avgTaskComplexity : F64
deriving DecidableEq, Repr

/-- `WorkflowOrchestrator._analyze_workflow`, with the float summation
and division of `sum(complexities) / len(complexities)` (`0.5` and small
integer lengths are exactly representable). -/
def analyzeWorkflow (tasks : List WTask) : Analysis :=
  { hasDependencies := tasks.any (fun t => decide (t.dependencies ≠ [])),
    taskCount := tasks.length,
    avgTaskComplexity :=
      if tasks.isEmpty then f64OfPos 1 2
      else F64.div (fsum (tasks.map taskComplexity))
        (F64.ofNat tasks.length) }

/-- Orchestrator-level configuration (read from `config` in
`WorkflowOrchestrator.__init__` and `_execute_sequential`). -/
structure OrchConfig where
  maxParallel : Nat := 3
  retryFailed : Bool := true
  maxRetries : Nat := 2
  continueOnFailure : Bool := false
deriving DecidableEq, Repr

/-- `max_retries = self.max_retries if self.retry_failed else 0` in
`_execute_single_task`. -/
def effectiveRetries (cfg : OrchConfig) : Nat :=
  if cfg.retryFailed then cfg.maxRetries else 0

/-- `WorkflowOrchestrator._execute_single_task`: up to
`effectiveRetries + 1` attempts, returning at the first success; both an
exception and a `success: False` result count as a failed attempt, and an
exhausted task yields a structured failure rather than raising.  The
exponential backoff sleeps do not affect the outcome. -/
def singleTaskSucceeds (cfg : OrchConfig) (wexec : Nat → Nat → Bool)
    (i : Nat) : Bool :=
  (List.range (effectiveRetries cfg + 1)).any (fun k => wexec i k)

/-- The per-strategy result triple (`completed`, `failed`, and the
workflow status map; status entries are keyed by task index, newest
first). -/
structure WResult where
  completed : Nat
  failed : Nat
  status : List (Nat × WStatus)
deriving DecidableEq, Repr

/-- `status_map.get(dep_id, TaskStatus.PENDING)`. -/
def statusOf (st : List (Nat × WStatus)) (i : Nat) : WStatus :=
  match st.find? (fun p => decide (p.1 = i)) with
  | some p => p.2
  | none => .pending

/-- `WorkflowOrchestrator._dependencies_met`. -/
def dependenciesMet (t : WTask) (st : List (Nat × WStatus)) : Bool :=
  t.dependencies.all (fun d => decide (statusOf st d = .completed))

/-- The loop body of `_execute_sequential`: skip tasks with unmet
dependencies, execute the rest, and stop at the first failure unless
`workflow.continue_on_failure` is set.  The transient RUNNING status is
immediately overwritten by the final status, so only the latter is
recorded. -/
def execSeqGo (cfg : OrchConfig) (wexec : Nat → Nat → Bool) :
    List WTask → List (Nat × WStatus) → Nat → Nat → WResult
  | [], st, c, f => { completed := c, failed := f, status := st }
  | t :: rest, st, c, f =>
      if dependenciesMet t st then
        if singleTaskSucceeds cfg wexec t.index then
          execSeqGo cfg wexec rest ((t.index, .completed) :: st) (c + 1) f
        else if cfg.continueOnFailure then
          execSeqGo cfg wexec rest ((t.index, .failed) :: st) c (f + 1)
        else
          { completed := c, failed := f + 1, status := (t.index, .failed) :: st }
      else
        execSeqGo cfg wexec rest ((t.index, .skipped) :: st) c f

/-- `WorkflowOrchestrator._execute_sequential`. -/
def executeSequential (cfg : OrchConfig) (wexec : Nat → Nat → Bool)
    (tasks : List WTask) : WResult :=
  execSeqGo cfg wexec tasks [] 0 0

/-- Executing one task of a level in `_execute_parallel`
(`workflow['tasks'][i]` indexes the prepared list by position; an
out-of-range index cannot occur for prepared inputs).  Since
`_execute_single_task` never raises, the `isinstance(result, Exception)`
branch is dead and a boolean outcome decides COMPLETED versus FAILED. -/
def execParTask (cfg : OrchConfig) (wexec : Nat → Nat → Bool)
    (tasks : List WTask) (acc : WResult) (i : Nat) : WResult :=
  match tasks.get? i with
  | none => acc
  | some t =>
      if singleTaskSucceeds cfg wexec t.index then
        { completed := acc.completed + 1, failed := acc.failed,
          status := (t.index, .completed) :: acc.status }
      else
        { completed := acc.completed, failed := acc.failed + 1,
          status := (t.index, .failed) :: acc.status }

/-- `WorkflowOrchestrator._execute_parallel`: levels from the leveler,
each level cut into `max_parallel` batches.  Batching changes only which
tasks run concurrently, not the per-task outcomes or the order in which
the counters are accumulated, so the batches are flattened here. -/
def executeParallel (cfg : OrchConfig) (wexec : Nat → Nat → Bool)
    (tasks : List WTask) : WResult :=
  let levels := (computeDependencyLevels tasks).getD []
  levels.foldl (fun acc lvl => lvl.foldl (execParTask cfg wexec tasks) acc)
    { completed := 0, failed := 0, status := [] }

/-- `WorkflowOrchestrator._execute_adaptive`. -/
def executeAdaptive (cfg : OrchConfig) (wexec : Nat → Nat → Bool)
    (tasks : List WTask) : WResult :=
  let analysis := analyzeWorkflow tasks
  if analysis.hasDependencies && F64.lt float07 analysis.avgTaskComplexity then
    executeParallel cfg wexec tasks
  else if !analysis.hasDependencies && decide (tasks.length > 5) then
    executeParallel cfg wexec tasks
  else
    executeSequential cfg wexec tasks

/-- Execution strategies accepted by `execute_workflow`. -/
inductive Strategy
  | sequential
  | parallel
  | adaptive
deriving DecidableEq, Repr

/-- The aggregate object returned by `execute_workflow` on its normal
(no internal exception) path; `duration` and the opaque `results` payloads
are omitted. -/
structure WorkflowOutcome where
  success : Bool
  completed : Nat
  failed : Nat
  status : List (Nat × WStatus)
deriving DecidableEq, Repr

/-- `WorkflowOrchestrator.execute_workflow`: prepare the tasks, run the
chosen strategy, and assemble the result with
`success = completed > 0 and failed == 0`. -/
def executeWorkflow (cfg : OrchConfig) (wexec : Nat → Nat → Bool)
    (specs : List WSpec) (strategy : Strategy) : WorkflowOutcome :=
  let tasks := prepareTasks specs
  let r :=
    match strategy with
    | .sequential => executeSequential cfg wexec tasks
    | .parallel => executeParallel cfg wexec tasks
    | .adaptive => executeAdaptive cfg wexec tasks
  { success := decide (0 < r.completed) && decide (r.failed = 0),
    completed := r.completed, failed := r.failed, status := r.status }

/-! ### Lemmas about the dependency leveler -/

theorem mem_unionList {p l : List Nat} {i : Nat} :
    i ∈ unionList p l ↔ i ∈ p ∨ i ∈ l := by
  simp only [unionList, List.mem_append, List.mem_dedup, List.mem_filter,
    decide_eq_true_eq]
  tauto

theorem nodup_unionList {p : List Nat} (l : List Nat) (hp : p.Nodup) :
    (unionList p l).Nodup := by
  refine List.Nodup.append hp (List.nodup_dedup _) ?_
  intro a ha hb
  rw [List.mem_dedup, List.mem_filter, decide_eq_true_eq] at hb
  exact hb.2 ha

theorem length_lt_unionList {p l : List Nat} {i : Nat}
    (hil : i ∈ l) (hip : i ∉ p) : p.length < (unionList p l).length := by
  have hne : (l.filter (fun j => decide (j ∉ p))).dedup ≠ [] := by
    intro h
    have : i ∈ (l.filter (fun j => decide (j ∉ p))).dedup := by
      rw [List.mem_dedup, List.mem_filter, decide_eq_true_eq]
      exact ⟨hil, hip⟩
    rw [h] at this
    exact List.not_mem_nil i this
  have : 0 < (l.filter (fun j => decide (j ∉ p))).dedup.length :=
    List.length_pos.mpr hne
  simp only [unionList, List.length_append]
  omega

theorem mem_passLevel {tasks : List WTask} {p : List Nat} {i : Nat} :
    i ∈ passLevel tasks p ↔
      ∃ t ∈ tasks, t.index = i ∧ i ∉ p ∧ ∀ d ∈ t.dependencies, d ∈ p := by
  simp only [passLevel, List.mem_map, List.mem_filter, Bool.and_eq_true,
    decide_eq_true_eq, List.all_eq_true]
  constructor
  · rintro ⟨t, ⟨ht, hni, hdep⟩, rfl⟩
    exact ⟨t, ht, rfl, hni, hdep⟩
  · rintro ⟨t, ht, rfl, hni, hdep⟩
    exact ⟨t, ⟨ht, hni, hdep⟩, rfl⟩

theorem mem_fallbackLevel {tasks : List WTask} {p : List Nat} {i : Nat} :
    i ∈ fallbackLevel tasks p ↔ ∃ t ∈ tasks, t.index = i ∧ i ∉ p := by
  simp only [fallbackLevel, List.mem_map, List.mem_filter, decide_eq_true_eq]
  constructor
  · rintro ⟨t, ⟨ht, hni⟩, rfl⟩
    exact ⟨t, ht, rfl, hni⟩
  · rintro ⟨t, ht, rfl, hni⟩
    exact ⟨t, ⟨ht, hni⟩, rfl⟩

/-- Correctness predicate for a list of levels, read oldest level first:
every task placed in a level has all its dependencies inside `before`,
the union of the strictly earlier levels. -/
def ChainOK (tasks : List WTask) : List (List Nat) → List Nat → Prop
  | [], _ => True
  | lvl :: rest, before =>
      (∀ i ∈ lvl, ∀ t ∈ tasks, t.index = i → ∀ d ∈ t.dependencies, d ∈ before) ∧
      ChainOK tasks rest (before ++ lvl)

theorem chainOK_append {tasks : List WTask} {ls : List (List Nat)}
    {lvl before : List Nat} (h : ChainOK tasks ls before)
    (hlvl : ∀ i ∈ lvl, ∀ t ∈ tasks, t.index = i →
      ∀ d ∈ t.dependencies, d ∈ before ++ ls.flatten) :
    ChainOK tasks (ls ++ [lvl]) before := by
  induction ls generalizing before with
  | nil =>
      refine ⟨?_, trivial⟩
      intro i hi t ht hidx d hd
      have := hlvl i hi t ht hidx d hd
      simpa using this
  | cons l ls ih =>
      obtain ⟨h1, h2⟩ := h
      refine ⟨h1, ih h2 ?_⟩
      intro i hi t ht hidx d hd
      have := hlvl i hi t ht hidx d hd
      simp only [List.flatten_cons, List.append_assoc] at this ⊢
      exact this

theorem exists_unprocessed {tasks : List WTask} {p : List Nat}
    (hnd : (tasks.map WTask.index).Nodup)
    (hsub : ∀ i ∈ p, i ∈ tasks.map WTask.index)
    (hlt : p.length < tasks.length) :
    ∃ t ∈ tasks, t.index ∉ p := by
  by_contra h
  push_neg at h
  have hsub2 : tasks.map WTask.index ⊆ p := by
    intro i hi
    obtain ⟨t, ht, rfl⟩ := List.mem_map.mp hi
    exact h t ht
  have hle := (hnd.subperm hsub2).length_le
  rw [List.length_map] at hle
  omega

theorem prepareTasks_map_index (specs : List WSpec) :
    (prepareTasks specs).map WTask.index = List.range specs.length := by
  unfold prepareTasks
  rw [List.map_map]
  exact List.enum_map_fst specs

theorem levelsGo_succ_of_lt {tasks : List WTask} {p : List Nat}
    {acc : List (List Nat)} {n : Nat} (hlt : p.length < tasks.length) :
    levelsGo tasks (n + 1) p acc =
      levelsGo tasks n
        (unionList p
          (if (passLevel tasks p).isEmpty then fallbackLevel tasks p
           else passLevel tasks p))
        ((if (passLevel tasks p).isEmpty then fallbackLevel tasks p
          else passLevel tasks p) :: acc) := by
  rw [levelsGo, if_pos hlt]

theorem levelsGo_isSome {tasks : List WTask}
    (hnd : (tasks.map WTask.index).Nodup) :
    ∀ (fuel : Nat) (p : List Nat) (acc : List (List Nat)),
      p.Nodup → (∀ i ∈ p, i ∈ tasks.map WTask.index) →
      tasks.length ≤ p.length + fuel →
      (levelsGo tasks fuel p acc).isSome := by
  intro fuel
  induction fuel with
  | zero =>
      intro p acc _ _ hle
      have : ¬ p.length < tasks.length := by omega
      simp [levelsGo, this]
  | succ n ih =>
      intro p acc hpn hsub hle
      by_cases hlt : p.length < tasks.length
      · obtain ⟨t, ht, hnp⟩ := exists_unprocessed hnd hsub hlt
        rw [levelsGo, if_pos hlt]
        set lvl : List Nat :=
          if (passLevel tasks p).isEmpty then fallbackLevel tasks p
          else passLevel tasks p with hlvl
        have hmem : ∃ i ∈ lvl, i ∉ p := by
          rw [hlvl]
          by_cases he : (passLevel tasks p).isEmpty
          · rw [if_pos he]
            exact ⟨t.index, mem_fallbackLevel.mpr ⟨t, ht, rfl, hnp⟩, hnp⟩
          · rw [if_neg he]
            obtain ⟨i, hi⟩ := List.exists_mem_of_ne_nil _
              (by simpa [List.isEmpty_iff] using he)
            obtain ⟨u, _, rfl, hup, _⟩ := mem_passLevel.mp hi
            exact ⟨u.index, hi, hup⟩
        have hlsub : ∀ i ∈ lvl, i ∈ tasks.map WTask.index := by
          intro i hi
          rw [hlvl] at hi
          by_cases he : (passLevel tasks p).isEmpty
          · rw [if_pos he] at hi
            obtain ⟨u, hu, rfl, _⟩ := mem_fallbackLevel.mp hi
            exact List.mem_map.mpr ⟨u, hu, rfl⟩
          · rw [if_neg he] at hi
            obtain ⟨u, hu, rfl, _⟩ := mem_passLevel.mp hi
            exact List.mem_map.mpr ⟨u, hu, rfl⟩
        obtain ⟨i, hil, hip⟩ := hmem
        refine ih (unionList p lvl) (lvl :: acc) (nodup_unionList lvl hpn) ?_ ?_
        · intro j hj
          rcases mem_unionList.mp hj with hjp | hjl
          · exact hsub j hjp
          · exact hlsub j hjl
        · have := length_lt_unionList hil hip
          omega
      · rw [levelsGo, if_neg hlt]
        rfl

/-- Under an acyclicity ranking with no dangling references, a scan over a
partially processed task list always finds a qualifying task, so the
fallback never fires. -/
theorem passLevel_ne_nil {tasks : List WTask} {p : List Nat} {r : Nat → Nat}
    (hclosed : ∀ t ∈ tasks, ∀ d ∈ t.dependencies, d ∈ tasks.map WTask.index)
    (hrank : ∀ t ∈ tasks, ∀ d ∈ t.dependencies, r d < r t.index)
    (hex : ∃ t ∈ tasks, t.index ∉ p) :
    passLevel tasks p ≠ [] := by
  obtain ⟨t0, ht0, hnp0⟩ := hex
  set U := tasks.filter (fun t => decide (t.index ∉ p)) with hU
  have hU0 : t0 ∈ U := by
    rw [hU, List.mem_filter]
    exact ⟨ht0, by simpa using hnp0⟩
  have hUne : U ≠ [] := fun h => by rw [h] at hU0; exact List.not_mem_nil t0 hU0
  obtain ⟨tm, htm⟩ : ∃ tm, U.argmin (fun t => r t.index) = some tm := by
    cases hA : U.argmin (fun t => r t.index) with
    | none => exact absurd (List.argmin_eq_none.mp hA) hUne
    | some tm => exact ⟨tm, rfl⟩
  have htm2 : tm ∈ U.argmin (fun t => r t.index) := Option.mem_def.mpr htm
  have htmU : tm ∈ U := List.argmin_mem htm2
  rw [hU, List.mem_filter, decide_eq_true_eq] at htmU
  obtain ⟨htmT, htmP⟩ := htmU
  have hdeps : ∀ d ∈ tm.dependencies, d ∈ p := by
    intro d hd
    by_contra hdp
    obtain ⟨u, hu, hud⟩ := List.mem_map.mp (hclosed tm htmT d hd)
    have huU : u ∈ U := by
      rw [hU, List.mem_filter, decide_eq_true_eq]
      exact ⟨hu, by rw [hud]; exact hdp⟩
    have h1 : r tm.index ≤ r u.index :=
      List.le_of_mem_argmin (f := fun t => r t.index) huU htm2
    have h2 : r d < r tm.index := hrank tm htmT d hd
    rw [hud] at h1
    omega
  intro hnil
  have : tm.index ∈ passLevel tasks p :=
    mem_passLevel.mpr ⟨tm, htmT, rfl, htmP, hdeps⟩
  rw [hnil] at this
  exact List.not_mem_nil _ this

theorem levelsGo_chainOK {tasks : List WTask} {r : Nat → Nat}
    (hnd : (tasks.map WTask.index).Nodup)
    (hclosed : ∀ t ∈ tasks, ∀ d ∈ t.dependencies, d ∈ tasks.map WTask.index)
    (hrank : ∀ t ∈ tasks, ∀ d ∈ t.dependencies, r d < r t.index) :
    ∀ (fuel : Nat) (p : List Nat) (acc : List (List Nat)),
      p.Nodup → (∀ i ∈ p, i ∈ tasks.map WTask.index) →
      tasks.length ≤ p.length + fuel →
      (∀ i, i ∈ p ↔ i ∈ acc.reverse.flatten) →
      ChainOK tasks acc.reverse [] →
      ∃ ls, levelsGo tasks fuel p acc = some ls ∧ ChainOK tasks ls [] := by
  intro fuel
  induction fuel with
  | zero =>
      intro p acc _ _ hle _ hchain
      have hnlt : ¬ p.length < tasks.length := by omega
      exact ⟨acc.reverse, by simp [levelsGo, hnlt], hchain⟩
  | succ n ih =>
      intro p acc hpn hsub hle hmemp hchain
      by_cases hlt : p.length < tasks.length
      · have hex := exists_unprocessed hnd hsub hlt
        have hne := passLevel_ne_nil hclosed hrank hex
        have hemp : (passLevel tasks p).isEmpty = false := by
          cases h : (passLevel tasks p).isEmpty
          · rfl
          · exact absurd (List.isEmpty_iff.mp h) hne
        rw [levelsGo_succ_of_lt hlt, hemp]
        simp only [Bool.false_eq_true, if_false]
        have hlsub : ∀ i ∈ passLevel tasks p, i ∈ tasks.map WTask.index := by
          intro i hi
          obtain ⟨u, hu, rfl, _⟩ := mem_passLevel.mp hi
          exact List.mem_map.mpr ⟨u, hu, rfl⟩
        obtain ⟨i0, hi0⟩ := List.exists_mem_of_ne_nil _ hne
        obtain ⟨u0, _, rfl, hu0p, _⟩ := mem_passLevel.mp hi0
        refine ih (unionList p (passLevel tasks p)) (passLevel tasks p :: acc)
          (nodup_unionList _ hpn) ?_ ?_ ?_ ?_
        · intro j hj
          rcases mem_unionList.mp hj with hjp | hjl
          · exact hsub j hjp
          · exact hlsub j hjl
        · have := length_lt_unionList hi0 hu0p
          omega
        · intro j
          rw [mem_unionList, hmemp, List.reverse_cons, List.flatten_append]
          simp [List.mem_append]
        · rw [List.reverse_cons]
          refine chainOK_append hchain ?_
          intro i hi t ht hidx d hd
          obtain ⟨t2, ht2, hidx2, _, hdep2⟩ := mem_passLevel.mp hi
          have : t2 = t := by
            apply List.inj_on_of_nodup_map hnd ht2 ht
            rw [hidx2, hidx]
          subst this
          have := hdep2 d hd
          rw [hmemp d] at this
          simpa using this
      · exact ⟨acc.reverse, by rw [levelsGo, if_neg hlt], hchain⟩

/-! ### Lemmas about sequential execution -/

theorem execSeqGo_status_mono (cfg : OrchConfig) (wexec : Nat → Nat → Bool) :
    ∀ (tasks : List WTask) (st : List (Nat × WStatus)) (c f : Nat)
      (q : Nat × WStatus), q ∈ st → q ∈ (execSeqGo cfg wexec tasks st c f).status := by
  intro tasks
  induction tasks with
  | nil => intro st c f q hq; exact hq
  | cons t rest ih =>
      intro st c f q hq
      rw [execSeqGo]
      by_cases h1 : dependenciesMet t st
      · rw [if_pos h1]
        by_cases h2 : singleTaskSucceeds cfg wexec t.index
        · rw [if_pos h2]
          exact ih _ _ _ q (List.mem_cons_of_mem _ hq)
        · rw [if_neg h2]
          by_cases h3 : cfg.continueOnFailure
          · rw [if_pos h3]
            exact ih _ _ _ q (List.mem_cons_of_mem _ hq)
          · rw [if_neg h3]
            exact List.mem_cons_of_mem _ hq
      · rw [if_neg h1]
        exact ih _ _ _ q (List.mem_cons_of_mem _ hq)

theorem execSeqGo_counts_of_all_skipped (cfg : OrchConfig)
    (wexec : Nat → Nat → Bool) :
    ∀ (tasks : List WTask) (st : List (Nat × WStatus)) (c f : Nat),
      (∀ q ∈ (execSeqGo cfg wexec tasks st c f).status, q.2 = WStatus.skipped) →
      (execSeqGo cfg wexec tasks st c f).completed = c ∧
        (execSeqGo cfg wexec tasks st c f).failed = f := by
  intro tasks
  induction tasks with
  | nil => intro st c f _; exact ⟨rfl, rfl⟩
  | cons t rest ih =>
      intro st c f hall
      rw [execSeqGo] at hall ⊢
      by_cases h1 : dependenciesMet t st
      · rw [if_pos h1] at hall ⊢
        by_cases h2 : singleTaskSucceeds cfg wexec t.index
        · rw [if_pos h2] at hall ⊢
          have hmem := execSeqGo_status_mono cfg wexec rest
            ((t.index, WStatus.completed) :: st) (c + 1) f
            (t.index, WStatus.completed) (List.mem_cons_self _ _)
          exact absurd (hall _ hmem) (by simp)
        · rw [if_neg h2] at hall ⊢
          by_cases h3 : cfg.continueOnFailure
          · rw [if_pos h3] at hall ⊢
            have hmem := execSeqGo_status_mono cfg wexec rest
              ((t.index, WStatus.failed) :: st) c (f + 1)
              (t.index, WStatus.failed) (List.mem_cons_self _ _)
            exact absurd (hall _ hmem) (by simp)
          · rw [if_neg h3] at hall ⊢
            exact absurd (hall (t.index, WStatus.failed) (List.mem_cons_self _ _))
              (by simp)
      · rw [if_neg h1] at hall ⊢
        exact ih _ _ _ hall

/-! ### Lemmas about the adaptive strategy heuristic -/

theorem taskComplexity_cases (t : WTask) :
    taskComplexity t = float03 ∨ taskComplexity t = float07 := by
  unfold taskComplexity
  by_cases h : (splitWords t.description).length ≤ 3
  · exact Or.inl (if_pos h)
  · exact Or.inr (if_neg h)

/-- On a workflow with dependencies, `_execute_adaptive` runs
sequentially when the float average complexity is at most the `0.7`
literal and parallel-by-level when it exceeds it. -/
theorem adaptive_branch (cfg : OrchConfig) (wexec : Nat → Nat → Bool)
    (tasks : List WTask)
    (hdep : (analyzeWorkflow tasks).hasDependencies = true) :
    (F64.lt float07 (analyzeWorkflow tasks).avgTaskComplexity = false →
      executeAdaptive cfg wexec tasks = executeSequential cfg wexec tasks) ∧
    (F64.lt float07 (analyzeWorkflow tasks).avgTaskComplexity = true →
      executeAdaptive cfg wexec tasks = executeParallel cfg wexec tasks) := by
  constructor
  · intro hlt
    simp only [executeAdaptive, hdep, hlt]
    simp
  · intro hlt
    simp only [executeAdaptive, hdep, hlt]
    simp

/-- Six tasks with four-word descriptions (complexity the `0.7` float
each), task 0 depending on task 1: float summation rounds six `0.7`s up,
so the average strictly exceeds the `0.7` literal. -/
def adSpecs : List WSpec :=
  [⟨[1], "w w w w"⟩, ⟨[], "w w w w"⟩, ⟨[], "w w w w"⟩,
   ⟨[], "w w w w"⟩, ⟨[], "w w w w"⟩, ⟨[], "w w w w"⟩]

/-! ### Claim theorems about the workflow orchestrator -/

/-- C5: `_compute_dependency_levels` terminates on every prepared task
list; on acyclic dependency graphs (witnessed by a ranking, with no
dangling references) every task's dependencies lie in strictly earlier
levels; the task list `[0: no deps, 1: no deps, 2: deps [0,1], 3: deps
[2]]` yields levels `[[0,1],[2],[3]]`; and cyclic input terminates with
the remaining unprocessed indices forced into the current level. -/
theorem dependency_leveling_correct :
    (∀ specs : List WSpec,
      ∃ ls, computeDependencyLevels (prepareTasks specs) = some ls) ∧
    (∀ (tasks : List WTask) (r : Nat → Nat),
      (tasks.map WTask.index).Nodup →
      (∀ t ∈ tasks, ∀ d ∈ t.dependencies, d ∈ tasks.map WTask.index) →
      (∀ t ∈ tasks, ∀ d ∈ t.dependencies, r d < r t.index) →
      ∃ ls, computeDependencyLevels tasks = some ls ∧ ChainOK tasks ls []) ∧
    computeDependencyLevels
        (prepareTasks [⟨[], ""⟩, ⟨[], ""⟩, ⟨[0, 1], ""⟩, ⟨[2], ""⟩]) =
      some [[0, 1], [2], [3]] ∧
    computeDependencyLevels (prepareTasks [⟨[1], ""⟩, ⟨[0], ""⟩]) =
      some [[0, 1]] := by
  refine ⟨?_, ?_, by decide, by decide⟩
  · intro specs
    have hnd : ((prepareTasks specs).map WTask.index).Nodup := by
      rw [prepareTasks_map_index]
      exact List.nodup_range _
    have := levelsGo_isSome hnd (prepareTasks specs).length [] []
      List.nodup_nil (by intro i hi; simp at hi) (by omega)
    exact Option.isSome_iff_exists.mp this
  · intro tasks r hnd hclosed hrank
    refine levelsGo_chainOK hnd hclosed hrank tasks.length [] []
      List.nodup_nil (by intro i hi; simp at hi) (by omega) ?_ trivial
    intro i
    simp

/-- Witness for C5: the acyclic-correctness part applied to the concrete
two-task chain `[0: no deps, 1: deps [0]]` with the identity ranking. -/
theorem dependency_leveling_correct_witness :
    ∃ ls, computeDependencyLevels (prepareTasks [⟨[], "a"⟩, ⟨[0], "b"⟩]) =
        some ls ∧
      ChainOK (prepareTasks [⟨[], "a"⟩, ⟨[0], "b"⟩]) ls [] :=
  dependency_leveling_correct.2.1 _ (fun i => i) (by decide) (by decide)
    (by decide)

/-- C3: `execute_workflow` reports `success = (completed > 0 and failed
== 0)` on every non-exception return, for every strategy; a sequential
workflow whose every recorded task status is SKIPPED yields `success =
false` with `completed = 0`; in particular a single task depending on
itself is skipped and the workflow is unsuccessful. -/
theorem workflow_success_formula :
    (∀ (cfg : OrchConfig) (wexec : Nat → Nat → Bool) (specs : List WSpec)
      (strategy : Strategy),
      ((executeWorkflow cfg wexec specs strategy).success = true ↔
        0 < (executeWorkflow cfg wexec specs strategy).completed ∧
          (executeWorkflow cfg wexec specs strategy).failed = 0)) ∧
    (∀ (cfg : OrchConfig) (wexec : Nat → Nat → Bool) (specs : List WSpec),
      (∀ q ∈ (executeWorkflow cfg wexec specs .sequential).status,
        q.2 = WStatus.skipped) →
      (executeWorkflow cfg wexec specs .sequential).success = false ∧
        (executeWorkflow cfg wexec specs .sequential).completed = 0) ∧
    executeWorkflow {} (fun _ _ => true) [⟨[0], "x"⟩] .sequential =
      { success := false, completed := 0, failed := 0,
        status := [(0, .skipped)] } := by
  refine ⟨?_, ?_, by decide⟩
  · intro cfg wexec specs strategy
    cases strategy <;> simp [executeWorkflow]
  · intro cfg wexec specs hall
    have hc := execSeqGo_counts_of_all_skipped cfg wexec (prepareTasks specs)
      [] 0 0 (by exact hall)
    refine ⟨?_, hc.1⟩
    simp [executeWorkflow, executeSequential, hc.1]

/-- Witness for C3: the all-skipped part applied to the one-task
self-dependent workflow. -/
theorem workflow_success_formula_witness :
    (executeWorkflow {} (fun _ _ => true) [⟨[0], "x"⟩] .sequential).success =
        false ∧
      (executeWorkflow {} (fun _ _ => true) [⟨[0], "x"⟩] .sequential).completed =
        0 :=
  workflow_success_formula.2.1 {} (fun _ _ => true) [⟨[0], "x"⟩] (by decide)

/-- C9 counterexample: the `avg_task_complexity > 0.7` branch of
`_execute_adaptive` is reachable, because `_analyze_workflow` sums floats:
six tasks of complexity `0.7` give `sum([0.7]*6)/6 > 0.7` (the rounded sum
divides to just above the literal).  On the concrete six-task workflow
with a dependency the adaptive strategy therefore runs parallel-by-level
and its result differs from the sequential one (task 0 is skipped
sequentially but completes by level). -/
theorem adaptive_unreachable_branch_counterexample :
    (∀ c ∈ (prepareTasks adSpecs).map taskComplexity, c = float07) ∧
    (analyzeWorkflow (prepareTasks adSpecs)).hasDependencies = true ∧
    F64.lt float07
      (analyzeWorkflow (prepareTasks adSpecs)).avgTaskComplexity = true ∧
    executeAdaptive {} (fun _ _ => true) (prepareTasks adSpecs) =
      executeParallel {} (fun _ _ => true) (prepareTasks adSpecs) ∧
    executeAdaptive {} (fun _ _ => true) (prepareTasks adSpecs) ≠
      executeSequential {} (fun _ _ => true) (prepareTasks adSpecs) ∧
    (executeWorkflow {} (fun _ _ => true) adSpecs .adaptive).completed = 6 ∧
    (executeWorkflow {} (fun _ _ => true) adSpecs .sequential).completed = 5 :=
  ⟨by decide, by decide, by decide, by decide, by decide, by decide,
    by decide⟩

/-- C9 (amended): `_analyze_workflow` gives every task the float `0.3`
or `0.7` as complexity, but the average is computed in float arithmetic,
whose rounding can push it above the `0.7` literal (which itself sits
strictly below 7/10): with dependencies the adaptive strategy runs
sequentially exactly when the float average is at most the `0.7`
literal, and parallel-by-level — reachably — when it exceeds it. -/
theorem adaptive_complexity_float_branching :
    (∀ t : WTask, taskComplexity t = float03 ∨ taskComplexity t = float07) ∧
    F64.toRat float07 < 7 / 10 ∧
    (∀ (cfg : OrchConfig) (wexec : Nat → Nat → Bool) (tasks : List WTask),
      (analyzeWorkflow tasks).hasDependencies = true →
      (F64.lt float07 (analyzeWorkflow tasks).avgTaskComplexity = false →
        executeAdaptive cfg wexec tasks = executeSequential cfg wexec tasks) ∧
      (F64.lt float07 (analyzeWorkflow tasks).avgTaskComplexity = true →
        executeAdaptive cfg wexec tasks = executeParallel cfg wexec tasks)) ∧
    (analyzeWorkflow (prepareTasks adSpecs)).hasDependencies = true ∧
    F64.lt float07
      (analyzeWorkflow (prepareTasks adSpecs)).avgTaskComplexity = true ∧
    executeAdaptive {} (fun _ _ => true) (prepareTasks adSpecs) ≠
      executeSequential {} (fun _ _ => true) (prepareTasks adSpecs) := by
  refine ⟨taskComplexity_cases, ?_, adaptive_branch, by decide, by decide,
    by decide⟩
  have h : float07 = { m := 6305039478318694, e := -53 } := by decide
  have h53 : Int.toNat 53 = 53 := rfl
  rw [h]
  norm_num [F64.toRat, h53]

/-- Witness for C9: the parallel branch taken on the concrete six-task
workflow, and the sequential branch on a small one. -/
theorem adaptive_complexity_float_branching_witness :
    executeAdaptive {} (fun _ _ => true) (prepareTasks adSpecs) =
      executeParallel {} (fun _ _ => true) (prepareTasks adSpecs) ∧
    executeAdaptive {} (fun _ _ => true)
        (prepareTasks [⟨[], "one"⟩, ⟨[0], "two"⟩]) =
      executeSequential {} (fun _ _ => true)
        (prepareTasks [⟨[], "one"⟩, ⟨[0], "two"⟩]) :=
  ⟨(adaptive_complexity_float_branching.2.2.1 {} (fun _ _ => true)
      (prepareTasks adSpecs) (by decide)).2 (by decide),
    (adaptive_complexity_float_branching.2.2.1 {} (fun _ _ => true)
      (prepareTasks [⟨[], "one"⟩, ⟨[0], "two"⟩]) (by decide)).1 (by decide)⟩

end Workflow

namespace Queue

/-- `TaskStatus` of `task_queue.py`. -/
inductive TaskStatus
  | pending
  | running
  | completed
  | failed
  | cancelled
  | timeout
deriving DecidableEq, Repr

/-- The `Task` dataclass.  Task ids are modelled as naturals (the heap
orders `(priority, task_id)` pairs), priorities by their `IntEnum` value,
results by an opaque numeric payload; `intent`, `parameters`, `tags` and
the timestamps carry no claim content and are omitted. -/
structure Task where
  id : Nat
  priority : Nat
  dependencies : List Nat
  timeout : Option Nat
  status : TaskStatus
  result : Option Nat
  error : Option String
  retryCount : Nat
  maxRetries : Nat
deriving DecidableEq, Repr

/-- A task as callers construct it: `status`, `result`, `error` and
`retry_count` are left at the dataclass defaults. -/
def mkTask (id prio : Nat) (deps : List Nat) (tmo : Option Nat)
    (maxr : Nat) : Task :=
  { id := id, priority := prio, dependencies := deps, timeout := tmo,
    status := .pending, result := none, error := none, retryCount := 0,
    maxRetries := maxr }

/-- Where the single `process_queue` driver coroutine stands between two
of its `await` points. -/
inductive DriverPC
  | top
  | gated
  | holding (prio id : Nat)
deriving DecidableEq, Repr

/-- What one invocation of the external executor does: return a value,
raise an exception with a message, or exceed the task timeout
(`asyncio.TimeoutError`). -/
inductive Outcome
  | ok (v : Nat)
  | err (msg : String)
  | timedOut
deriving DecidableEq, Repr

/-- Python `set.add` on a duplicate-free list. -/
def insertSet (i : Nat) (l : List Nat) : List Nat :=
  if i ∈ l then l else i :: l

/-- The mutable state of one `AdvancedTaskQueue`: the task map (as a
lookup function plus its key list), the `asyncio.PriorityQueue` contents,
the running / completed sets, the reverse dependency index, the
`task_futures` keys, the spawned-but-not-yet-started executions, a ghost
count of executor invocations per task, and the driver position. -/
structure Sched where
  maxConcurrent : Nat
  tasks : Nat → Option Task
  taskIds : List Nat
  queue : List (Nat × Nat)
  running : List Nat
  completed : List Nat
  dependents : Nat → List Nat
  futures : List Nat
  pendingStarts : List Nat
  invoc : Nat → Nat
  pc : DriverPC

/-- `AdvancedTaskQueue._can_execute`. -/
def canExecute (s : Sched) (t : Task) : Bool :=
  t.dependencies.all (fun d => decide (d ∈ s.completed))

/-- The storing part of `add_task`: record the task under its id and
register the reverse dependency edges. -/
def storeTask (s : Sched) (t : Task) : Sched :=
  { s with
    tasks := Function.update s.tasks t.id (some t),
    taskIds := insertSet t.id s.taskIds,
    dependents := fun d =>
      if d ∈ t.dependencies then insertSet t.id (s.dependents d)
      else s.dependents d }

/-- `AdvancedTaskQueue.add_task`: store the task, register reverse
dependency edges, and enqueue `(priority, id)` when all dependencies are
already completed. -/
def addTask (s : Sched) (t : Task) : Sched :=
  let s1 := storeTask s t
  if canExecute s1 t then
    { s1 with queue := s1.queue ++ [(t.priority, t.id)] }
  else s1

/-- Heap order on `(priority, task_id)` pairs. -/
def entryLt (a b : Nat × Nat) : Bool :=
  decide (a.1 < b.1) || (decide (a.1 = b.1) && decide (a.2 < b.2))

/-- The least entry of the ready queue. -/
def queueMin : List (Nat × Nat) → Option (Nat × Nat)
  | [] => none
  | e :: rest =>
      match queueMin rest with
      | none => some e
      | some m => if entryLt m e then some m else some e

/-- `PriorityQueue.get`: remove and return the least entry. -/
def popMin (l : List (Nat × Nat)) : Option ((Nat × Nat) × List (Nat × Nat)) :=
  match queueMin l with
  | none => none
  | some e => some (e, l.erase e)

/-- The synchronous prefix of `execute_task`: mark the task RUNNING and
join the running set.  `invoc` counts executor invocations (ghost). -/
def startRun (s : Sched) (id : Nat) : Sched :=
  { s with
    tasks := Function.update s.tasks id
      ((s.tasks id).map (fun t => { t with status := .running })),
    running := insertSet id s.running,
    pendingStarts := s.pendingStarts.erase id,
    invoc := Function.update s.invoc id (s.invoc id + 1) }

/-- `f"Task timed out after {task.timeout}s"`. -/
def timeoutMsg (tmo : Option Nat) : String :=
  "Task timed out after " ++
    (match tmo with | some n => toString n | none => "None") ++ "s"

/-- `_check_dependent_tasks`: the queue entries added for dependents of a
just-completed task that are PENDING with all dependencies completed.
The loop only appends to the queue, so it equals this one-pass scan. -/
def readyEntry (s : Sched) (k : Nat) : Option (Nat × Nat) :=
  match s.tasks k with
  | none => none
  | some t =>
      if t.status = .pending ∧ canExecute s t = true then
        some (t.priority, k)
      else none

def readyDependents (s : Sched) (id : Nat) : List (Nat × Nat) :=
  (s.dependents id).filterMap (readyEntry s)

/-- The completion of an in-flight `execute_task`, by executor outcome:
success marks COMPLETED, records the result, joins the completed-set and
enqueues newly ready dependents; timeout marks TIMEOUT with the timeout
error and no retry; an exception increments `retry_count` and either
re-enqueues the task as PENDING (when still under `max_retries`) or
leaves it FAILED. -/
def finishRun (s : Sched) (id : Nat) (o : Outcome) : Sched :=
  match s.tasks id with
  | none => s
  | some t =>
      match o with
      | .ok v =>
          let s1 : Sched :=
            { s with
              tasks := Function.update s.tasks id
                (some { t with status := .completed, result := some v }),
              running := s.running.erase id,
              completed := insertSet id s.completed }
          { s1 with queue := s1.queue ++ readyDependents s1 id }
      | .timedOut =>
          { s with
            tasks := Function.update s.tasks id
              (some { t with status := .timeout,
                             error := some (timeoutMsg t.timeout) }),
            running := s.running.erase id }
      | .err m =>
          if t.retryCount + 1 < t.maxRetries then
            { s with
              tasks := Function.update s.tasks id
                (some { t with status := .pending, error := some m,
                               retryCount := t.retryCount + 1 }),
              running := s.running.erase id,
              queue := s.queue ++ [(t.priority, id)] }
          else
            { s with
              tasks := Function.update s.tasks id
                (some { t with status := .failed, error := some m,
                               retryCount := t.retryCount + 1 }),
              running := s.running.erase id }

/-- `execute_task(task_id, executor)` run to completion with a given
executor outcome: `ValueError` on an unknown id; otherwise the start
prefix followed by outcome handling.  The second component is the
returned result or the propagated exception. -/
def executeTask (s : Sched) (id : Nat) (o : Outcome) :
    Sched × Except String Nat :=
  match s.tasks id with
  | none => (s, .error ("Task " ++ toString id ++ " not found"))
  | some t =>
      (finishRun (startRun s id) id o,
        match o with
        | .ok v => .ok v
        | .err m => .error m
        | .timedOut => .error (timeoutMsg t.timeout))

/-- `AdvancedTaskQueue.cancel_task`: a PENDING task is marked CANCELLED
directly; otherwise, if a future is recorded for the id, the future is
cancelled (killing a not-yet-started or in-flight execution) and the task
is marked CANCELLED and dropped from the running set; otherwise the call
returns `False` and changes nothing. -/
def cancelTask (s : Sched) (id : Nat) : Sched × Bool :=
  match s.tasks id with
  | none => (s, false)
  | some t =>
      if t.status = .pending then
        ({ s with
            tasks := Function.update s.tasks id
              (some { t with status := .cancelled }) }, true)
      else if id ∈ s.futures then
        ({ s with
            tasks := Function.update s.tasks id
              (some { t with status := .cancelled }),
            running := s.running.erase id,
            pendingStarts := s.pendingStarts.erase id }, true)
      else (s, false)

/-- Does the map hold this id with status COMPLETED. -/
def isCompletedId (s : Sched) (i : Nat) : Bool :=
  match s.tasks i with
  | some t => decide (t.status = .completed)
  | none => false

/-- `AdvancedTaskQueue.clear_completed`: delete every COMPLETED task from
the map and discard its id from the completed-set (the dependency index
is left untouched). -/
def clearCompleted (s : Sched) : Sched :=
  let toRemove := s.taskIds.filter (isCompletedId s)
  { s with
    tasks := fun i => if i ∈ toRemove then none else s.tasks i,
    taskIds := s.taskIds.filter (fun i => decide (i ∉ toRemove)),
    completed := s.completed.filter (fun i => decide (i ∉ toRemove)) }

/-- The JSON document written by `_persist_state`: the dumped task map
plus the completed-id list (the timestamp carries no claim content). -/
structure Snapshot where
  tasks : List (Nat × Task)
  completed : List Nat
deriving DecidableEq, Repr

/-- The snapshot of the current in-memory state. -/
def snapshot (s : Sched) : Snapshot :=
  { tasks := s.taskIds.filterMap (fun i => (s.tasks i).map (fun t => (i, t))),
    completed := s.completed }

/-- `_persist_state`: with a configured path and a successful write the
snapshot replaces the file; a write failure is caught inside
`_persist_state` (logged only), leaving both the file and the in-memory
state untouched and returning normally — modelled by totality. -/
def persistState (hasPath ok : Bool) (file : Option Snapshot) (s : Sched) :
    Option Snapshot :=
  if hasPath && ok then some (snapshot s) else file

/-- `add_task` with its trailing `_persist_state` call. -/
def addTaskPersist (hasPath ok : Bool) (file : Option Snapshot) (s : Sched)
    (t : Task) : Sched × Option Snapshot :=
  (addTask s t, persistState hasPath ok file (addTask s t))

/-- `execute_task` with its `finally: self._persist_state()`; the
`ValueError` for an unknown id is raised before the `try`, so nothing is
persisted on that path. -/
def executeTaskPersist (hasPath ok : Bool) (file : Option Snapshot)
    (s : Sched) (id : Nat) (o : Outcome) :
    Sched × Option Snapshot × Except String Nat :=
  match s.tasks id with
  | none => (s, file, .error ("Task " ++ toString id ++ " not found"))
  | some _ =>
      ((executeTask s id o).1,
        persistState hasPath ok file (executeTask s id o).1,
        (executeTask s id o).2)

/-- `cancel_task` contains no `_persist_state` call: the file is
unchanged. -/
def cancelTaskPersist (file : Option Snapshot) (s : Sched) (id : Nat) :
    Sched × Option Snapshot × Bool :=
  ((cancelTask s id).1, file, (cancelTask s id).2)

/-- `clear_completed` contains no `_persist_state` call: the file is
unchanged. -/
def clearCompletedPersist (file : Option Snapshot) (s : Sched) :
    Sched × Option Snapshot :=
  (clearCompleted s, file)

/-- One interleaving step of the scheduler: an external call (`add_task`,
`cancel_task`, `clear_completed`), a micro-step of the single
`process_queue` driver, the deferred synchronous prefix of a spawned
`execute_task`, or the completion of an in-flight execution with the
oracle outcome of that invocation.  A `pop` can only return once every
previously spawned execution has run its synchronous prefix, because the
asyncio event loop runs ready callbacks in FIFO order while the driver
awaits the queue.

`strict = true` restricts the external calls to the disciplined usage the
spec assumes: fresh ids on `add_task`, no `cancel_task` on a task in the
completed-set, and no `clear_completed`.  `allowAdd` limits which ids may
be added (`fun _ => True` for the unrestricted system). -/
inductive Step (exec : Nat → Nat → Outcome) (strict : Bool)
    (allowAdd : Nat → Prop) : Sched → Sched → Prop
  | add (s : Sched) (t : Task) (hst : t.status = .pending)
      (hrc : t.retryCount = 0) (hal : allowAdd t.id)
      (hfresh : strict = true → s.tasks t.id = none) :
      Step exec strict allowAdd s (addTask s t)
  | gate (s : Sched) (hpc : s.pc = .top)
      (hlt : s.running.length < s.maxConcurrent) :
      Step exec strict allowAdd s { s with pc := .gated }
  | popTimeout (s : Sched) (hpc : s.pc = .gated) :
      Step exec strict allowAdd s { s with pc := .top }
  | pop (s : Sched) (e : Nat × Nat) (q' : List (Nat × Nat))
      (hpc : s.pc = .gated) (hps : s.pendingStarts = [])
      (hpop : popMin s.queue = some (e, q')) :
      Step exec strict allowAdd s
        { s with queue := q', pc := .holding e.1 e.2 }
  | skip (s : Sched) (p i : Nat) (hpc : s.pc = .holding p i)
      (hskip : i ∈ s.completed ∨ s.tasks i = none ∨
        ∃ t, s.tasks i = some t ∧ t.status = .cancelled) :
      Step exec strict allowAdd s { s with pc := .top }
  | spawn (s : Sched) (p i : Nat) (t : Task) (hpc : s.pc = .holding p i)
      (ht : s.tasks i = some t) (hnc : i ∉ s.completed)
      (hstat : t.status ≠ .cancelled) :
      Step exec strict allowAdd s
        { s with pendingStarts := insertSet i s.pendingStarts,
                 futures := insertSet i s.futures, pc := .top }
  | start (s : Sched) (i : Nat) (hi : i ∈ s.pendingStarts) :
      Step exec strict allowAdd s (startRun s i)
  | finish (s : Sched) (i : Nat) (hi : i ∈ s.running) :
      Step exec strict allowAdd s (finishRun s i (exec i (s.invoc i - 1)))
  | cancel (s : Sched) (i : Nat) (hstrict : strict = true → i ∉ s.completed) :
      Step exec strict allowAdd s (cancelTask s i).1
  | clear (s : Sched) (hstrict : strict = false) :
      Step exec strict allowAdd s (clearCompleted s)

/-- A fresh scheduler (`AdvancedTaskQueue.__init__` without persisted
state). -/
def init (mc : Nat) : Sched :=
  { maxConcurrent := mc, tasks := fun _ => none, taskIds := [], queue := [],
    running := [], completed := [], dependents := fun _ => [], futures := [],
    pendingStarts := [], invoc := fun _ => 0, pc := .top }

/-- Reachability under scheduler steps. -/
def Reach (exec : Nat → Nat → Outcome) (strict : Bool)
    (allowAdd : Nat → Prop) : Sched → Sched → Prop :=
  Relation.ReflTransGen (Step exec strict allowAdd)

/-- The ids with an entry in the ready queue. -/
def queueIds (s : Sched) : List Nat :=
  s.queue.map Prod.snd

/-- No restriction on added ids. -/
def allowAll : Nat → Prop := fun _ => True

/-! ### Concrete executors and traces used by counterexamples and
witnesses -/

/-- An executor that always succeeds. -/
def execOK : Nat → Nat → Outcome := fun _ _ => .ok 0

/-- An executor that raises on its first two invocations of a task and
succeeds from the third on. -/
def execF2 : Nat → Nat → Outcome :=
  fun _ n => if n < 2 then .err "boom" else .ok 7

/-- A dependency-free task driven once to completion (`a`-trace). -/
def ta : Task := mkTask 0 2 [] none 3

def a1 : Sched := addTask (init 1) ta

def a2 : Sched := { a1 with pc := .gated }

def a3 : Sched := { a2 with queue := [], pc := .holding 2 0 }

def a4 : Sched :=
  { a3 with pendingStarts := insertSet 0 a3.pendingStarts,
            futures := insertSet 0 a3.futures, pc := .top }

def a5 : Sched := startRun a4 0

def a6 : Sched := finishRun a5 0 (execOK 0 (a5.invoc 0 - 1))

theorem reach_a5 : Reach execOK true allowAll (init 1) a5 :=
  .head (Step.add _ ta rfl rfl trivial (fun _ => rfl))
    (.head (Step.gate _ (by decide) (by decide))
      (.head (Step.pop _ (2, 0) [] (by decide) (by decide) (by decide))
        (.head (Step.spawn _ 2 0 ta (by decide) (by decide) (by decide)
            (by decide))
          (.single (Step.start _ 0 (by decide))))))

theorem reach_a6 : Reach execOK true allowAll (init 1) a6 :=
  .tail reach_a5 (Step.finish _ 0 (by decide))

/-- A task with `max_retries = 2` driven under `execF2` (`f`-trace): two
failing invocations, then the task is left FAILED and the queue is idle;
the third invocation never happens. -/
def tf : Task := mkTask 0 2 [] none 2

def f1 : Sched := addTask (init 1) tf

def f2 : Sched := { f1 with pc := .gated }

def f3 : Sched := { f2 with queue := [], pc := .holding 2 0 }

def f4 : Sched :=
  { f3 with pendingStarts := insertSet 0 f3.pendingStarts,
            futures := insertSet 0 f3.futures, pc := .top }

def f5 : Sched := startRun f4 0

def f6 : Sched := finishRun f5 0 (execF2 0 (f5.invoc 0 - 1))

def f7 : Sched := { f6 with pc := .gated }

def f8 : Sched := { f7 with queue := [], pc := .holding 2 0 }

def f9 : Sched :=
  { f8 with pendingStarts := insertSet 0 f8.pendingStarts,
            futures := insertSet 0 f8.futures, pc := .top }

def f10 : Sched := startRun f9 0

def f11 : Sched := finishRun f10 0 (execF2 0 (f10.invoc 0 - 1))

theorem reach_f11 : Reach execF2 true allowAll (init 1) f11 :=
  .head (Step.add _ tf rfl rfl trivial (fun _ => rfl))
    (.head (Step.gate _ (by decide) (by decide))
      (.head (Step.pop _ (2, 0) [] (by decide) (by decide) (by decide))
        (.head (Step.spawn _ 2 0 tf (by decide) (by decide) (by decide)
            (by decide))
          (.head (Step.start _ 0 (by decide))
            (.head (Step.finish _ 0 (by decide))
              (.head (Step.gate _ (by decide) (by decide))
                (.head (Step.pop _ (2, 0) [] (by decide) (by decide)
                    (by decide))
                  (.head (Step.spawn _ 2 0
                      { tf with status := .pending, error := some "boom",
                                retryCount := 1 }
                      (by decide) (by decide) (by decide) (by decide))
                    (.head (Step.start _ 0 (by decide))
                      (.single (Step.finish _ 0 (by decide))))))))))))

/-- Two dependency-free tasks driven with `max_concurrent = 1`
(`b`-trace): the driver re-checks its gate while the first spawned
execution has not yet started, and both end up RUNNING at once. -/
def tb0 : Task := mkTask 0 2 [] none 3

def tb1 : Task := mkTask 1 2 [] none 3

def b1 : Sched := addTask (init 1) tb0

def b2 : Sched := addTask b1 tb1

def b3 : Sched := { b2 with pc := .gated }

def b4 : Sched := { b3 with queue := [(2, 1)], pc := .holding 2 0 }

def b5 : Sched :=
  { b4 with pendingStarts := insertSet 0 b4.pendingStarts,
            futures := insertSet 0 b4.futures, pc := .top }

def b6 : Sched := { b5 with pc := .gated }

def b7 : Sched := startRun b6 0

def b8 : Sched := { b7 with queue := [], pc := .holding 2 1 }

def b9 : Sched :=
  { b8 with pendingStarts := insertSet 1 b8.pendingStarts,
            futures := insertSet 1 b8.futures, pc := .top }

def b10 : Sched := startRun b9 1

theorem reach_b10 : Reach execOK true allowAll (init 1) b10 :=
  .head (Step.add _ tb0 rfl rfl trivial (fun _ => rfl))
    (.head (Step.add _ tb1 rfl rfl trivial (fun _ => rfl))
      (.head (Step.gate _ (by decide) (by decide))
        (.head (Step.pop _ (2, 0) [(2, 1)] (by decide) (by decide)
            (by decide))
          (.head (Step.spawn _ 2 0 tb0 (by decide) (by decide) (by decide)
              (by decide))
            (.head (Step.gate _ (by decide) (by decide))
              (.head (Step.start _ 0 (by decide))
                (.head (Step.pop _ (2, 1) [] (by decide) (by decide)
                    (by decide))
                  (.head (Step.spawn _ 2 1 tb1 (by decide) (by decide)
                      (by decide) (by decide))
                    (.single (Step.start _ 1 (by decide)))))))))))

/-- A duplicate `add_task` overwriting a queued task with a version that
has an unmet dependency (`g`-trace): the stale queue entry is spawned and
the task runs while its dependency is still PENDING. -/
def tg0 : Task := mkTask 0 3 [] none 3

def tg1 : Task := mkTask 1 2 [] none 3

def tg1b : Task := mkTask 1 2 [0] none 3

def g1 : Sched := addTask (init 5) tg0

def g2 : Sched := addTask g1 tg1

def g3 : Sched := addTask g2 tg1b

def g4 : Sched := { g3 with pc := .gated }

def g5 : Sched := { g4 with queue := [(3, 0)], pc := .holding 2 1 }

def g6 : Sched :=
  { g5 with pendingStarts := insertSet 1 g5.pendingStarts,
            futures := insertSet 1 g5.futures, pc := .top }

def g7 : Sched := startRun g6 1

theorem reach_g7 : Reach execOK false allowAll (init 5) g7 :=
  .head (Step.add _ tg0 rfl rfl trivial (fun h => Bool.noConfusion h))
    (.head (Step.add _ tg1 rfl rfl trivial (fun h => Bool.noConfusion h))
      (.head (Step.add _ tg1b rfl rfl trivial (fun h => Bool.noConfusion h))
        (.head (Step.gate _ (by decide) (by decide))
          (.head (Step.pop _ (2, 1) [(3, 0)] (by decide) (by decide)
              (by decide))
            (.head (Step.spawn _ 2 1 tg1b (by decide) (by decide)
                (by decide) (by decide))
              (.single (Step.start _ 1 (by decide))))))))

/-- Clearing a completed dependency and then re-adding and re-completing
tasks with the cleared ids (`w`-trace): task 1 is PENDING with the
cleared dependency 0 right after `clear_completed` (state `w8`), and a
later completion enqueues it again (state `w20`). -/
def tw0 : Task := mkTask 0 2 [] none 3

def tw1 : Task := mkTask 1 2 [0, 2] none 3

def tw2 : Task := mkTask 2 2 [] none 3

def w1 : Sched := addTask (init 1) tw0

def w2 : Sched := { w1 with pc := .gated }

def w3 : Sched := { w2 with queue := [], pc := .holding 2 0 }

def w4 : Sched :=
  { w3 with pendingStarts := insertSet 0 w3.pendingStarts,
            futures := insertSet 0 w3.futures, pc := .top }

def w5 : Sched := startRun w4 0

def w6 : Sched := finishRun w5 0 (execOK 0 (w5.invoc 0 - 1))

def w7 : Sched := addTask w6 tw1

def w8 : Sched := clearCompleted w7

def w9 : Sched := addTask w8 tw0

def w10 : Sched := { w9 with pc := .gated }

def w11 : Sched := { w10 with queue := [], pc := .holding 2 0 }

def w12 : Sched :=
  { w11 with pendingStarts := insertSet 0 w11.pendingStarts,
             futures := insertSet 0 w11.futures, pc := .top }

def w13 : Sched := startRun w12 0

def w14 : Sched := finishRun w13 0 (execOK 0 (w13.invoc 0 - 1))

def w15 : Sched := addTask w14 tw2

def w16 : Sched := { w15 with pc := .gated }

def w17 : Sched := { w16 with queue := [], pc := .holding 2 2 }

def w18 : Sched :=
  { w17 with pendingStarts := insertSet 2 w17.pendingStarts,
             futures := insertSet 2 w17.futures, pc := .top }

def w19 : Sched := startRun w18 2

def w20 : Sched := finishRun w19 2 (execOK 2 (w19.invoc 2 - 1))

theorem reach_w8 : Reach execOK false allowAll (init 1) w8 :=
  .head (Step.add _ tw0 rfl rfl trivial (fun h => Bool.noConfusion h))
    (.head (Step.gate _ (by decide) (by decide))
      (.head (Step.pop _ (2, 0) [] (by decide) (by decide) (by decide))
        (.head (Step.spawn _ 2 0 tw0 (by decide) (by decide) (by decide)
            (by decide))
          (.head (Step.start _ 0 (by decide))
            (.head (Step.finish _ 0 (by decide))
              (.head (Step.add _ tw1 rfl rfl trivial
                  (fun h => Bool.noConfusion h))
                (.single (Step.clear _ rfl))))))))

theorem reach_w8_w20 : Reach execOK false allowAll w8 w20 :=
  .head (Step.add _ tw0 rfl rfl trivial (fun h => Bool.noConfusion h))
    (.head (Step.gate _ (by decide) (by decide))
      (.head (Step.pop _ (2, 0) [] (by decide) (by decide) (by decide))
        (.head (Step.spawn _ 2 0 tw0 (by decide) (by decide) (by decide)
            (by decide))
          (.head (Step.start _ 0 (by decide))
            (.head (Step.finish _ 0 (by decide))
              (.head (Step.add _ tw2 rfl rfl trivial
                  (fun h => Bool.noConfusion h))
                (.head (Step.gate _ (by decide) (by decide))
                  (.head (Step.pop _ (2, 2) [] (by decide) (by decide)
                      (by decide))
                    (.head (Step.spawn _ 2 2 tw2 (by decide) (by decide)
                        (by decide) (by decide))
                      (.head (Step.start _ 2 (by decide))
                        (.single (Step.finish _ 2 (by decide)))))))))))))

/-! ### Claim theorems about `execute_task`, `cancel_task` and
persistence -/

/-- C4: when the executor invocation of a stored task times out,
`execute_task` marks the task TIMEOUT, records the timeout error message,
leaves `retry_count` unchanged, does not re-enqueue the task (the ready
queue is untouched, whatever `max_retries` is), and propagates the
timeout error to the caller. -/
theorem timeout_terminal_no_retry (s : Sched) (id : Nat) (t : Task)
    (h : s.tasks id = some t) :
    (executeTask s id .timedOut).2 = .error (timeoutMsg t.timeout) ∧
    (executeTask s id .timedOut).1.tasks id =
      some { t with status := .timeout,
                    error := some (timeoutMsg t.timeout) } ∧
    ((executeTask s id .timedOut).1.tasks id).map Task.retryCount =
      some t.retryCount ∧
    (executeTask s id .timedOut).1.queue = s.queue := by
  refine ⟨?_, ?_, ?_, ?_⟩ <;>
    simp [executeTask, h, startRun, finishRun, Function.update_same]

/-- Witness for C4: a concrete task with a 10 second timeout whose
executor times out. -/
theorem timeout_terminal_no_retry_witness :
    (executeTask (addTask (init 1) (mkTask 0 2 [] (some 10) 3)) 0
        .timedOut).2 =
      .error (timeoutMsg (some 10)) ∧
    (executeTask (addTask (init 1) (mkTask 0 2 [] (some 10) 3)) 0
        .timedOut).1.tasks 0 =
      some { mkTask 0 2 [] (some 10) 3 with
               status := .timeout,
               error := some (timeoutMsg (some 10)) } ∧
    ((executeTask (addTask (init 1) (mkTask 0 2 [] (some 10) 3)) 0
        .timedOut).1.tasks 0).map Task.retryCount = some 0 ∧
    (executeTask (addTask (init 1) (mkTask 0 2 [] (some 10) 3)) 0
        .timedOut).1.queue =
      (addTask (init 1) (mkTask 0 2 [] (some 10) 3)).queue :=
  timeout_terminal_no_retry (addTask (init 1) (mkTask 0 2 [] (some 10) 3)) 0
    (mkTask 0 2 [] (some 10) 3) (by decide)

/-- C7 counterexample: in a reachable state a task that ran to COMPLETED
through `process_queue` still has its entry in `task_futures`, so
`cancel_task` on it returns `True` and flips the terminal COMPLETED
status to CANCELLED — the claim that such a call returns false and that
COMPLETED is never changed fails. -/
theorem cancel_completed_counterexample :
    Reach execOK true allowAll (init 1) a6 ∧
    (a6.tasks 0).map Task.status = some .completed ∧
    0 ∈ a6.futures ∧
    (cancelTask a6 0).2 = true ∧
    ((cancelTask a6 0).1.tasks 0).map Task.status = some .cancelled :=
  ⟨reach_a6, by decide, by decide, by decide, by decide⟩

/-- C7 amended: `cancel_task` returns false exactly when the id is
unknown, or the task is not PENDING and no execution future is recorded
for the id; on a false return the state is unchanged.  For a task
executed via `process_queue` the `task_futures` entry lingers after the
terminal state, so cancelling such a task — even a COMPLETED or already
CANCELLED one — returns true and sets its status to CANCELLED. -/
theorem cancel_task_characterization (s : Sched) (id : Nat) :
    ((cancelTask s id).2 = false ↔
      (s.tasks id = none ∨
        ∃ t, s.tasks id = some t ∧ t.status ≠ .pending ∧ id ∉ s.futures)) ∧
    ((cancelTask s id).2 = false → (cancelTask s id).1 = s) := by
  cases h : s.tasks id with
  | none => simp [cancelTask, h]
  | some t =>
      by_cases hp : t.status = .pending
      · refine ⟨by simp [cancelTask, h, hp], fun hfalse => ?_⟩
        exact absurd hfalse (by simp [cancelTask, h, hp])
      · by_cases hf : id ∈ s.futures
        · refine ⟨by simp [cancelTask, h, hp, hf], fun hfalse => ?_⟩
          exact absurd hfalse (by simp [cancelTask, h, hp, hf])
        · refine ⟨by simp [cancelTask, h, hp, hf], fun _ => ?_⟩
          simp [cancelTask, h, hp, hf]

/-- Witness for C7: cancelling an unknown id in a concrete reachable
state returns false and leaves the state unchanged. -/
theorem cancel_task_characterization_witness :
    (cancelTask a6 5).1 = a6 :=
  (cancel_task_characterization a6 5).2 (by decide)

/-- C8 counterexample: `cancel_task` mutates the state (a PENDING task
becomes CANCELLED, so the fresh snapshot differs from the old one) but
performs no snapshot write — the persistence file still holds the stale
snapshot, refuting "every mutating Scheduler operation writes the
persistence snapshot after the mutation". -/
theorem persistence_on_cancel_counterexample :
    (cancelTaskPersist (some (snapshot a1)) a1 0).2.2 = true ∧
    (((cancelTaskPersist (some (snapshot a1)) a1 0).1.tasks 0).map
      Task.status = some .cancelled) ∧
    (cancelTaskPersist (some (snapshot a1)) a1 0).2.1 = some (snapshot a1) ∧
    snapshot (cancelTaskPersist (some (snapshot a1)) a1 0).1 ≠
      snapshot a1 := by
  refine ⟨by decide, by decide, rfl, by decide⟩

/-- C8 amended: `add_task` and `execute_task` write the snapshot of the
mutated state after the mutation; `cancel_task` and `clear_completed`
perform no snapshot write at all; and a snapshot write failure is
non-fatal — it is caught inside `_persist_state`, leaves the file
untouched, and the in-memory effect of the operation is the same as on a
successful write. -/
theorem persistence_behavior :
    (∀ (ok : Bool) (file : Option Snapshot) (s : Sched) (t : Task),
      (addTaskPersist true ok file s t).1 = addTask s t ∧
      (ok = true →
        (addTaskPersist true ok file s t).2 = some (snapshot (addTask s t))) ∧
      (ok = false → (addTaskPersist true ok file s t).2 = file)) ∧
    (∀ (ok : Bool) (file : Option Snapshot) (s : Sched) (id : Nat)
      (o : Outcome) (t : Task), s.tasks id = some t →
      (executeTaskPersist true ok file s id o).1 = (executeTask s id o).1 ∧
      (ok = true →
        (executeTaskPersist true ok file s id o).2.1 =
          some (snapshot (executeTask s id o).1)) ∧
      (ok = false → (executeTaskPersist true ok file s id o).2.1 = file)) ∧
    (∀ (file : Option Snapshot) (s : Sched) (id : Nat),
      (cancelTaskPersist file s id).2.1 = file ∧
      (cancelTaskPersist file s id).1 = (cancelTask s id).1) ∧
    (∀ (file : Option Snapshot) (s : Sched),
      (clearCompletedPersist file s).2 = file ∧
      (clearCompletedPersist file s).1 = clearCompleted s) := by
  refine ⟨?_, ?_, ?_, ?_⟩
  · intro ok file s t
    refine ⟨rfl, ?_, ?_⟩ <;> intro hok <;>
      simp [addTaskPersist, persistState, hok]
  · intro ok file s id o t h
    refine ⟨?_, ?_, ?_⟩
    · simp [executeTaskPersist, h]
    · intro hok
      simp [executeTaskPersist, persistState, h, hok]
    · intro hok
      simp [executeTaskPersist, persistState, h, hok]
  · intro file s id
    exact ⟨rfl, rfl⟩
  · intro file s
    exact ⟨rfl, rfl⟩

/-- Witness for C8: the execute branch at a concrete state, both on a
successful and on a failing write. -/
theorem persistence_behavior_witness :
    (executeTaskPersist true true none a1 0 (.ok 0)).2.1 =
      some (snapshot (executeTask a1 0 (.ok 0)).1) ∧
    (executeTaskPersist true false none a1 0 (.ok 0)).2.1 = none :=
  ⟨(persistence_behavior.2.1 true none a1 0 (.ok 0) ta (by decide)).2.1 rfl,
    (persistence_behavior.2.1 false none a1 0 (.ok 0) ta (by decide)).2.2 rfl⟩

/-- C2 counterexample: a task with `max_retries = 2` under an executor
that raises on invocations 1 and 2 and would succeed on invocation 3:
driving the queue reaches an idle state (empty ready queue, nothing
spawned or running) in which the task is terminal FAILED with
`retry_count = 2` and the executor was invoked only twice — the claimed
final status COMPLETED is never reached because the second failure is not
re-enqueued. -/
theorem retry_scenario_counterexample :
    execF2 0 0 = .err "boom" ∧ execF2 0 1 = .err "boom" ∧
    execF2 0 2 = .ok 7 ∧
    Reach execF2 true allowAll (init 1) f11 ∧
    f11.queue = [] ∧ f11.running = [] ∧ f11.pendingStarts = [] ∧
    (f11.tasks 0).map Task.status = some .failed ∧
    (f11.tasks 0).map Task.retryCount = some 2 ∧
    f11.invoc 0 = 2 :=
  ⟨rfl, rfl, rfl, reach_f11, by decide, by decide, by decide, by decide,
    by decide, by decide⟩

/-- C6 counterexample: with `max_concurrent = 1`, the driver re-checks
its gate while the first spawned execution has not yet run its
synchronous prefix (so `running_tasks` does not count it), pops and
spawns a second task, and both executions then mark themselves RUNNING:
two tasks are RUNNING at once. -/
theorem bounded_concurrency_counterexample :
    Reach execOK true allowAll (init 1) b10 ∧
    b10.maxConcurrent = 1 ∧
    b10.running.length = 2 ∧
    (b10.tasks 0).map Task.status = some .running ∧
    (b10.tasks 1).map Task.status = some .running :=
  ⟨reach_b10, rfl, by decide, by decide, by decide⟩

/-- C1 counterexample: re-adding an id overwrites the task record while
the stale ready-queue entry survives; the overwritten task is spawned
from that entry and runs with its dependency still PENDING. -/
theorem dependency_gating_counterexample :
    Reach execOK false allowAll (init 5) g7 ∧
    (g7.tasks 1).map Task.status = some .running ∧
    (g7.tasks 1).map Task.dependencies = some [0] ∧
    (g7.tasks 0).map Task.status = some .pending :=
  ⟨reach_g7, by decide, by decide, by decide⟩

/-- C10 counterexample: immediately after `clear_completed` the PENDING
task 1 depends on the cleared id 0 and fails the readiness check, but
subsequent `add_task` calls re-using the cleared ids, once completed,
enqueue task 1 again (the dependency index was never cleaned), refuting
"never enqueued by any subsequent operation". -/
theorem clear_completed_blocked_counterexample :
    Reach execOK false allowAll (init 1) w8 ∧
    (w8.tasks 1).map Task.status = some .pending ∧
    (w8.tasks 1).map Task.dependencies = some [0, 2] ∧
    w8.tasks 0 = none ∧ w8.completed = [] ∧ w8.queue = [] ∧
    canExecute w8 tw1 = false ∧
    Reach execOK false allowAll w8 w20 ∧
    w20.queue = [(2, 1)] :=
  ⟨reach_w8, by decide, by decide, by decide, by decide, by decide,
    by decide, reach_w8_w20, by decide⟩

/-! ### Projection lemmas for the scheduler operations -/

theorem length_insertSet (i : Nat) (l : List Nat) :
    (insertSet i l).length ≤ l.length + 1 := by
  unfold insertSet
  split
  · omega
  · simp

theorem length_insertSet_ge (i : Nat) (l : List Nat) :
    l.length ≤ (insertSet i l).length := by
  unfold insertSet
  split
  · omega
  · simp

theorem mem_insertSet {i j : Nat} {l : List Nat} :
    j ∈ insertSet i l ↔ j = i ∨ j ∈ l := by
  unfold insertSet
  split
  · rename_i h
    constructor
    · exact Or.inr
    · rintro (rfl | hj)
      · exact h
      · exact hj
  · simp [List.mem_cons]

theorem length_erase_le (a : Nat) (l : List Nat) :
    (l.erase a).length ≤ l.length :=
  (List.erase_sublist a l).length_le

theorem addTask_fields (s : Sched) (t : Task) :
    (addTask s t).maxConcurrent = s.maxConcurrent ∧
    (addTask s t).running = s.running ∧
    (addTask s t).pendingStarts = s.pendingStarts ∧
    (addTask s t).pc = s.pc ∧
    (addTask s t).completed = s.completed := by
  refine ⟨?_, ?_, ?_, ?_, ?_⟩ <;> (simp only [addTask]; split <;> rfl)

theorem finishRun_fields (s : Sched) (id : Nat) (o : Outcome) :
    (finishRun s id o).maxConcurrent = s.maxConcurrent ∧
    (finishRun s id o).pendingStarts = s.pendingStarts ∧
    (finishRun s id o).pc = s.pc ∧
    (finishRun s id o).running.length ≤ s.running.length := by
  cases h : s.tasks id with
  | none => simp [finishRun, h]
  | some t =>
      cases o with
      | ok v => simp [finishRun, h, length_erase_le]
      | timedOut => simp [finishRun, h, length_erase_le]
      | err m =>
          refine ⟨?_, ?_, ?_, ?_⟩ <;>
            (simp only [finishRun, h]; split <;> simp [length_erase_le])

theorem cancelTask_fields (s : Sched) (id : Nat) :
    (cancelTask s id).1.maxConcurrent = s.maxConcurrent ∧
    ((cancelTask s id).1.pendingStarts = s.pendingStarts ∨
      (cancelTask s id).1.pendingStarts = s.pendingStarts.erase id) ∧
    (cancelTask s id).1.pc = s.pc ∧
    (cancelTask s id).1.running.length ≤ s.running.length := by
  cases h : s.tasks id with
  | none => simp [cancelTask, h]
  | some t =>
      refine ⟨?_, ?_, ?_, ?_⟩ <;>
        (simp only [cancelTask, h]; split
         · simp [length_erase_le]
         · split <;> simp [length_erase_le])

theorem step_maxConcurrent {exec : Nat → Nat → Outcome} {b : Bool}
    {allow : Nat → Prop} {s s2 : Sched} (h : Step exec b allow s s2) :
    s2.maxConcurrent = s.maxConcurrent := by
  cases h with
  | add t _ _ _ _ => exact (addTask_fields s t).1
  | gate _ _ => rfl
  | popTimeout _ => rfl
  | pop e q' _ _ _ => rfl
  | skip p i _ _ => rfl
  | spawn p i t _ _ _ _ => rfl
  | start i _ => rfl
  | finish i _ => exact (finishRun_fields s i _).1
  | cancel i _ => exact (cancelTask_fields s i).1
  | clear _ => rfl

/-! ### The concurrency bound invariant (C6) -/

/-- Inductive invariant for the concurrency bound of `process_queue`: at
most one spawned execution is awaiting its synchronous prefix; once the
driver has passed its gate the running plus pending starts stay within
`max_concurrent`; and at the loop top the sum can exceed the bound by at
most the one just-spawned execution. -/
structure CInv (s : Sched) : Prop where
  ps_le_one : s.pendingStarts.length ≤ 1
  holding_ps : ∀ p i, s.pc = .holding p i → s.pendingStarts = []
  gated_bound : s.pc = .gated →
    s.running.length + s.pendingStarts.length ≤ s.maxConcurrent
  holding_bound : ∀ p i, s.pc = .holding p i →
    s.running.length ≤ s.maxConcurrent
  top_bound : s.pc = .top →
    s.running.length + s.pendingStarts.length ≤ s.maxConcurrent + 1

theorem cInv_init (mc : Nat) : CInv (init mc) := by
  refine ⟨?_, ?_, ?_, ?_, ?_⟩ <;> intros <;> simp_all [init]

theorem cInv_step {exec : Nat → Nat → Outcome} {b : Bool}
    {allow : Nat → Prop} {s s2 : Sched} (h : Step exec b allow s s2)
    (hinv : CInv s) : CInv s2 := by
  obtain ⟨h1, h2, h3, h4, h5⟩ := hinv
  cases h with
  | add t _ _ _ _ =>
      obtain ⟨hmc, hrun, hps, hpc, _⟩ := addTask_fields s t
      exact ⟨by rw [hps]; exact h1,
        fun p i hh => by rw [hps]; exact h2 p i (by rw [← hpc]; exact hh),
        fun hh => by
          rw [hrun, hps, hmc]; exact h3 (by rw [← hpc]; exact hh),
        fun p i hh => by
          rw [hrun, hmc]; exact h4 p i (by rw [← hpc]; exact hh),
        fun hh => by
          rw [hrun, hps, hmc]; exact h5 (by rw [← hpc]; exact hh)⟩
  | gate hpc hlt =>
      refine ⟨h1, by intro p i hh; exact absurd hh (by simp), ?_,
        by intro p i hh; exact absurd hh (by simp), by intro hh; simp at hh⟩
      intro _
      show s.running.length + s.pendingStarts.length ≤ s.maxConcurrent
      have := h1
      omega
  | popTimeout hpc =>
      refine ⟨h1, by intro p i hh; exact absurd hh (by simp),
        by intro hh; simp at hh,
        by intro p i hh; exact absurd hh (by simp), ?_⟩
      intro _
      show s.running.length + s.pendingStarts.length ≤ s.maxConcurrent + 1
      have := h3 hpc
      omega
  | pop e q' hpc hps hpop =>
      refine ⟨h1, by intro p i _; exact hps, by intro hh; simp at hh, ?_,
        by intro hh; simp at hh⟩
      intro p i _
      show s.running.length ≤ s.maxConcurrent
      have := h3 hpc
      rw [hps] at this
      simpa using this
  | skip p i hpc hskip =>
      refine ⟨h1, by intro p2 i2 hh; exact absurd hh (by simp),
        by intro hh; simp at hh,
        by intro p2 i2 hh; exact absurd hh (by simp), ?_⟩
      intro _
      show s.running.length + s.pendingStarts.length ≤ s.maxConcurrent + 1
      have ha := h4 p i hpc
      have hb := h2 p i hpc
      rw [hb]
      simpa using Nat.le_succ_of_le ha
  | spawn p i t hpc ht hnc hstat =>
      have hb := h2 p i hpc
      have ha := h4 p i hpc
      have hone : insertSet i s.pendingStarts = [i] := by
        rw [hb]; simp [insertSet]
      refine ⟨?_, by intro p2 i2 hh; exact absurd hh (by simp),
        by intro hh; simp at hh,
        by intro p2 i2 hh; exact absurd hh (by simp), ?_⟩
      · show (insertSet i s.pendingStarts).length ≤ 1
        rw [hone]
        simp
      · intro _
        show s.running.length + (insertSet i s.pendingStarts).length ≤
          s.maxConcurrent + 1
        rw [hone]
        simp only [List.length_cons, List.length_nil]
        omega
  | start i hi =>
      have herase : (s.pendingStarts.erase i).length =
          s.pendingStarts.length - 1 := List.length_erase_of_mem hi
      have hpos : 0 < s.pendingStarts.length := List.length_pos.mpr
        (fun hh => by rw [hh] at hi; exact List.not_mem_nil i hi)
      have hins := length_insertSet i s.running
      refine ⟨?_, ?_, ?_, ?_, ?_⟩
      · show (s.pendingStarts.erase i).length ≤ 1
        omega
      · intro p i2 hh
        have := h2 p i2 hh
        rw [this] at hi
        exact absurd hi (List.not_mem_nil i)
      · intro hh
        have := h3 hh
        show (insertSet i s.running).length +
          (s.pendingStarts.erase i).length ≤ s.maxConcurrent
        omega
      · intro p i2 hh
        have := h2 p i2 hh
        rw [this] at hi
        exact absurd hi (List.not_mem_nil i)
      · intro hh
        have := h5 hh
        show (insertSet i s.running).length +
          (s.pendingStarts.erase i).length ≤ s.maxConcurrent + 1
        omega
  | finish i hi =>
      obtain ⟨hmc, hps, hpc, hrun⟩ := finishRun_fields s i _
      exact ⟨by rw [hps]; exact h1,
        fun p i2 hh => by rw [hps]; exact h2 p i2 (by rw [← hpc]; exact hh),
        fun hh => by
          rw [hps, hmc]
          have := h3 (by rw [← hpc]; exact hh)
          omega,
        fun p i2 hh => by
          rw [hmc]
          have := h4 p i2 (by rw [← hpc]; exact hh)
          omega,
        fun hh => by
          rw [hps, hmc]
          have := h5 (by rw [← hpc]; exact hh)
          omega⟩
  | cancel i _ =>
      obtain ⟨hmc, hps, hpc, hrun⟩ := cancelTask_fields s i
      have hpsle : (cancelTask s i).1.pendingStarts.length ≤
          s.pendingStarts.length := by
        rcases hps with h | h
        · rw [h]
        · rw [h]; exact length_erase_le i s.pendingStarts
      exact ⟨by omega,
        fun p i2 hh => by
          have hb := h2 p i2 (by rw [← hpc]; exact hh)
          rcases hps with h | h
          · rw [h, hb]
          · rw [h, hb]; rfl,
        fun hh => by
          rw [hmc]
          have := h3 (by rw [← hpc]; exact hh)
          omega,
        fun p i2 hh => by
          rw [hmc]
          have := h4 p i2 (by rw [← hpc]; exact hh)
          omega,
        fun hh => by
          rw [hmc]
          have := h5 (by rw [← hpc]; exact hh)
          omega⟩
  | clear _ => exact ⟨h1, h2, h3, h4, h5⟩

theorem cInv_reach {exec : Nat → Nat → Outcome} {b : Bool}
    {allow : Nat → Prop} {s s2 : Sched} (h : Reach exec b allow s s2)
    (hinv : CInv s) : CInv s2 := by
  induction h with
  | refl => exact hinv
  | tail _ hstep ih => exact cInv_step hstep ih

theorem reach_maxConcurrent {exec : Nat → Nat → Outcome} {b : Bool}
    {allow : Nat → Prop} {s s2 : Sched} (h : Reach exec b allow s s2) :
    s2.maxConcurrent = s.maxConcurrent := by
  induction h with
  | refl => rfl
  | tail _ hstep ih => rw [step_maxConcurrent hstep, ih]

/-- C6 amended: in every state reachable by driving the queue, at most
`max_concurrent + 1` tasks are RUNNING at once (the gate of
`process_queue` reads `running_tasks`, which a spawned-but-not-yet-started
execution does not yet count toward, so the hard ceiling can be exceeded
by exactly one — and by no more than one). -/
theorem bounded_concurrency_plus_one {exec : Nat → Nat → Outcome}
    {b : Bool} {allow : Nat → Prop} {mc : Nat} {s : Sched}
    (h : Reach exec b allow (init mc) s) :
    s.running.length ≤ mc + 1 := by
  have hinv := cInv_reach h (cInv_init mc)
  have hmc : s.maxConcurrent = mc := reach_maxConcurrent h
  obtain ⟨h1, h2, h3, h4, h5⟩ := hinv
  cases hpc : s.pc with
  | top =>
      have := h5 hpc
      omega
  | gated =>
      have := h3 hpc
      omega
  | holding p i =>
      have := h4 p i hpc
      omega

/-- Witness for C6: the bound evaluated on the concrete overshoot trace:
two RUNNING tasks with `max_concurrent = 1` is within `1 + 1`. -/
theorem bounded_concurrency_plus_one_witness :
    b10.running.length ≤ 1 + 1 :=
  bounded_concurrency_plus_one reach_b10

/-! ### Supporting lemmas for the strict invariant -/

theorem queueMin_cons_none {x : Nat × Nat} {rest : List (Nat × Nat)}
    (h : queueMin rest = none) : queueMin (x :: rest) = some x := by
  rw [queueMin, h]

theorem queueMin_cons_some {x m : Nat × Nat} {rest : List (Nat × Nat)}
    (h : queueMin rest = some m) :
    queueMin (x :: rest) = if entryLt m x then some m else some x := by
  rw [queueMin, h]

theorem queueMin_mem : ∀ {l : List (Nat × Nat)} {e : Nat × Nat},
    queueMin l = some e → e ∈ l := by
  intro l
  induction l with
  | nil => intro e h; exact Option.noConfusion h
  | cons x rest ih =>
      intro e h
      cases hr : queueMin rest with
      | none =>
          rw [queueMin_cons_none hr] at h
          cases h
          exact List.mem_cons_self _ _
      | some m =>
          rw [queueMin_cons_some hr] at h
          by_cases hlt : entryLt m x
          · rw [if_pos hlt] at h
            cases h
            exact List.mem_cons_of_mem _ (ih hr)
          · rw [if_neg hlt] at h
            cases h
            exact List.mem_cons_self _ _

theorem popMin_spec {l : List (Nat × Nat)} {e : Nat × Nat}
    {q' : List (Nat × Nat)} (h : popMin l = some (e, q')) :
    e ∈ l ∧ q' = l.erase e := by
  unfold popMin at h
  cases hm : queueMin l with
  | none => rw [hm] at h; exact Option.noConfusion h
  | some m =>
      rw [hm] at h
      cases h
      exact ⟨queueMin_mem hm, rfl⟩

theorem nodup_insertSet {i : Nat} {l : List Nat} (h : l.Nodup) :
    (insertSet i l).Nodup := by
  unfold insertSet
  split
  · exact h
  · exact List.nodup_cons.mpr ⟨by assumption, h⟩

theorem erase_mem_of_ne {l : List Nat} {i j : Nat} (hj : j ∈ l)
    (hne : j ≠ i) : j ∈ l.erase i := by
  rcases (List.mem_erase_of_ne hne).mpr hj with h
  exact h

/-- In a queue whose ids are duplicate-free, removing an entry removes its
id entirely. -/
theorem erase_entry_id_not_mem {q : List (Nat × Nat)} {e : Nat × Nat}
    (hnd : (q.map Prod.snd).Nodup) (he : e ∈ q) :
    e.2 ∉ (q.erase e).map Prod.snd := by
  intro hmem
  obtain ⟨e2, he2, heq⟩ := List.mem_map.mp hmem
  have hq : q.Nodup := hnd.of_map
  have he2q : e2 ∈ q := (q.erase_sublist e).mem he2
  by_cases hee : e2 = e
  · subst hee
    exact (hq.mem_erase_iff.mp he2).1 rfl
  · have := List.inj_on_of_nodup_map hnd he2q he heq
    exact hee this

theorem mem_map_snd_erase {q : List (Nat × Nat)} {e : Nat × Nat} {i : Nat}
    (h : i ∈ (q.erase e).map Prod.snd) : i ∈ q.map Prod.snd := by
  obtain ⟨e2, he2, heq⟩ := List.mem_map.mp h
  exact List.mem_map.mpr ⟨e2, (q.erase_sublist e).mem he2, heq⟩

/-- The id payload of `readyDependents` is a sub-filter of the dependent
list. -/
theorem readyEntry_none {s : Sched} {k : Nat} (h : s.tasks k = none) :
    readyEntry s k = none := by
  rw [readyEntry, h]

theorem readyEntry_some {s : Sched} {k : Nat} {t : Task}
    (h : s.tasks k = some t) :
    readyEntry s k =
      if t.status = .pending ∧ canExecute s t = true then
        some (t.priority, k)
      else none := by
  rw [readyEntry, h]

theorem mem_readyDependents {s : Sched} {id : Nat} {e : Nat × Nat}
    (h : e ∈ readyDependents s id) :
    e.2 ∈ s.dependents id ∧
      ∃ t, s.tasks e.2 = some t ∧ e.1 = t.priority ∧
        t.status = .pending ∧ canExecute s t = true := by
  unfold readyDependents at h
  obtain ⟨k, hk, hke⟩ := List.mem_filterMap.mp h
  cases ht : s.tasks k with
  | none => rw [readyEntry_none ht] at hke; exact Option.noConfusion hke
  | some t =>
      rw [readyEntry_some ht] at hke
      by_cases hc : t.status = .pending ∧ canExecute s t = true
      · rw [if_pos hc] at hke
        cases hke
        exact ⟨hk, t, ht, rfl, hc.1, hc.2⟩
      · rw [if_neg hc] at hke
        exact Option.noConfusion hke

theorem readyEntry_snd {s : Sched} {k : Nat} {e : Nat × Nat}
    (h : readyEntry s k = some e) : e.2 = k := by
  cases ht : s.tasks k with
  | none => rw [readyEntry_none ht] at h; exact Option.noConfusion h
  | some t =>
      rw [readyEntry_some ht] at h
      by_cases hc : t.status = .pending ∧ canExecute s t = true
      · rw [if_pos hc] at h
        cases h
        rfl
      · rw [if_neg hc] at h
        exact Option.noConfusion h

theorem filterMap_readyEntry_snd_nodup {s : Sched} :
    ∀ {l : List Nat}, l.Nodup →
      ((l.filterMap (readyEntry s)).map Prod.snd).Nodup := by
  intro l
  induction l with
  | nil => intro _; simp
  | cons k rest ih =>
      intro hnd
      rw [List.nodup_cons] at hnd
      obtain ⟨hk, hrest⟩ := hnd
      rw [List.filterMap_cons]
      cases he : readyEntry s k with
      | none => exact ih hrest
      | some e =>
          rw [List.map_cons, List.nodup_cons]
          refine ⟨?_, ih hrest⟩
          intro hmem
          obtain ⟨e2, he2, heq⟩ := List.mem_map.mp hmem
          obtain ⟨k2, hk2, hke2⟩ := List.mem_filterMap.mp he2
          rw [readyEntry_snd he] at heq
          rw [← heq, readyEntry_snd hke2] at hk
          exact hk hk2

theorem readyDependents_snd_nodup {s : Sched} {id : Nat}
    (hnd : (s.dependents id).Nodup) :
    ((readyDependents s id).map Prod.snd).Nodup :=
  filterMap_readyEntry_snd_nodup hnd

/-! ### The strict-usage invariant (C1, C2)

`SInv` is the inductive invariant maintained by every strict-mode step:
fresh ids on `add_task`, no cancellation of completed tasks, no
`clear_completed`. -/

/-- What the driver knows about the entry it is holding between the queue
pop and the `create_task` call. -/
def HeldOK (s : Sched) (i : Nat) : Prop :=
  (∃ t, s.tasks i = some t ∧
    (t.status = .pending ∨ t.status = .cancelled) ∧
    (∀ d ∈ t.dependencies, d ∈ s.completed) ∧
    (t.status = .pending →
      s.invoc i = t.retryCount ∧ t.retryCount < max 1 t.maxRetries)) ∧
  i ∉ s.queue.map Prod.snd ∧ i ∉ s.pendingStarts ∧ i ∉ s.running

structure SInv (s : Sched) : Prop where
  queue_ok : ∀ e ∈ s.queue, ∃ t, s.tasks e.2 = some t ∧
    (t.status = .pending ∨ t.status = .cancelled) ∧
    ∀ d ∈ t.dependencies, d ∈ s.completed
  ps_ok : ∀ i ∈ s.pendingStarts, ∃ t, s.tasks i = some t ∧
    (t.status = .pending ∨ t.status = .cancelled) ∧
    ∀ d ∈ t.dependencies, d ∈ s.completed
  run_ok : ∀ i ∈ s.running, ∃ t, s.tasks i = some t ∧
    t.status = .running ∧ ∀ d ∈ t.dependencies, d ∈ s.completed
  completed_ok : ∀ d ∈ s.completed, ∃ t, s.tasks d = some t ∧
    t.status = .completed
  running_status : ∀ i t, s.tasks i = some t → t.status = .running →
    i ∈ s.running
  queue_ids_nodup : (s.queue.map Prod.snd).Nodup
  queue_disj : ∀ i ∈ s.queue.map Prod.snd,
    i ∉ s.pendingStarts ∧ i ∉ s.running
  ps_run_disj : ∀ i ∈ s.pendingStarts, i ∉ s.running
  ps_nodup : s.pendingStarts.Nodup
  run_nodup : s.running.Nodup
  dependents_nodup : ∀ d, (s.dependents d).Nodup
  dep_ok : ∀ d i, i ∈ s.dependents d → ∀ t, s.tasks i = some t →
    d ∈ t.dependencies
  dependents_some : ∀ d i, i ∈ s.dependents d → s.tasks i ≠ none
  fresh_none : ∀ i, s.tasks i = none → i ∉ s.queue.map Prod.snd ∧
    i ∉ s.pendingStarts ∧ i ∉ s.running ∧ i ∉ s.completed
  holding_ok : ∀ p i, s.pc = .holding p i → HeldOK s i
  ps_retry : ∀ i ∈ s.pendingStarts, ∀ t, s.tasks i = some t →
    s.invoc i = t.retryCount ∧ t.retryCount < max 1 t.maxRetries
  run_retry : ∀ i ∈ s.running, ∀ t, s.tasks i = some t →
    s.invoc i = t.retryCount + 1 ∧ t.retryCount < max 1 t.maxRetries
  pending_invoc : ∀ i t, s.tasks i = some t → t.status = .pending →
    s.invoc i = t.retryCount ∧ t.retryCount < max 1 t.maxRetries
  invoc_bound : ∀ i t, s.tasks i = some t → s.invoc i ≤ max 1 t.maxRetries
  invoc_none : ∀ i, s.tasks i = none → s.invoc i = 0

theorem sInv_init (mc : Nat) : SInv (init mc) := by
  refine ⟨?_, ?_, ?_, ?_, ?_, ?_, ?_, ?_, ?_, ?_, ?_, ?_, ?_, ?_, ?_, ?_,
    ?_, ?_, ?_, ?_⟩ <;> intros <;> simp_all [init]

theorem sInv_pc_only {s : Sched} (pc2 : DriverPC) (hinv : SInv s)
    (hhold : ∀ p i, pc2 = .holding p i → HeldOK s i) :
    SInv { s with pc := pc2 } :=
  { queue_ok := hinv.queue_ok, ps_ok := hinv.ps_ok, run_ok := hinv.run_ok,
    completed_ok := hinv.completed_ok, running_status := hinv.running_status,
    queue_ids_nodup := hinv.queue_ids_nodup, queue_disj := hinv.queue_disj,
    ps_run_disj := hinv.ps_run_disj, ps_nodup := hinv.ps_nodup,
    run_nodup := hinv.run_nodup, dependents_nodup := hinv.dependents_nodup,
    dep_ok := hinv.dep_ok, dependents_some := hinv.dependents_some,
    fresh_none := hinv.fresh_none,
    holding_ok := hhold, ps_retry := hinv.ps_retry,
    run_retry := hinv.run_retry, pending_invoc := hinv.pending_invoc,
    invoc_bound := hinv.invoc_bound, invoc_none := hinv.invoc_none }

theorem sInv_pop {s : Sched} {e : Nat × Nat} {q' : List (Nat × Nat)}
    (hinv : SInv s) (hps : s.pendingStarts = [])
    (hpop : popMin s.queue = some (e, q')) :
    SInv { s with queue := q', pc := .holding e.1 e.2 } := by
  obtain ⟨hem, hq'⟩ := popMin_spec hpop
  subst hq'
  have hid : e.2 ∈ s.queue.map Prod.snd := List.mem_map.mpr ⟨e, hem, rfl⟩
  have hsub : ∀ x ∈ s.queue.erase e, x ∈ s.queue := fun x hx =>
    (s.queue.erase_sublist e).mem hx
  refine
    { queue_ok := fun e2 he2 => hinv.queue_ok e2 (hsub e2 he2),
      ps_ok := hinv.ps_ok, run_ok := hinv.run_ok,
      completed_ok := hinv.completed_ok,
      running_status := hinv.running_status,
      queue_ids_nodup :=
        hinv.queue_ids_nodup.sublist ((s.queue.erase_sublist e).map Prod.snd),
      queue_disj := fun j hj => hinv.queue_disj j (mem_map_snd_erase hj),
      ps_run_disj := hinv.ps_run_disj, ps_nodup := hinv.ps_nodup,
      run_nodup := hinv.run_nodup,
      dependents_nodup := hinv.dependents_nodup, dep_ok := hinv.dep_ok,
      dependents_some := hinv.dependents_some,
      fresh_none := ?_, holding_ok := ?_, ps_retry := hinv.ps_retry,
      run_retry := hinv.run_retry, pending_invoc := hinv.pending_invoc,
      invoc_bound := hinv.invoc_bound, invoc_none := hinv.invoc_none }
  · intro j hj
    obtain ⟨h1, h2, h3, h4⟩ := hinv.fresh_none j hj
    exact ⟨fun hm => h1 (mem_map_snd_erase hm), h2, h3, h4⟩
  · intro p i hpi
    cases hpi
    obtain ⟨t, ht, hst, hdep⟩ := hinv.queue_ok e hem
    refine ⟨⟨t, ht, hst, hdep, fun hpend => hinv.pending_invoc e.2 t ht hpend⟩,
      erase_entry_id_not_mem hinv.queue_ids_nodup hem, ?_,
      (hinv.queue_disj e.2 hid).2⟩
    rw [hps]
    exact List.not_mem_nil e.2

theorem sInv_spawn {s : Sched} {p i : Nat} {t : Task}
    (hinv : SInv s) (hpc : s.pc = .holding p i) (ht : s.tasks i = some t)
    (hnc : i ∉ s.completed) (hstat : t.status ≠ .cancelled) :
    SInv { s with pendingStarts := insertSet i s.pendingStarts,
                  futures := insertSet i s.futures, pc := .top } := by
  obtain ⟨⟨t2, ht2, hst2, hdep2, hpay2⟩, hnq, hnps, hnr⟩ :=
    hinv.holding_ok p i hpc
  rw [ht] at ht2
  injection ht2 with ht2
  subst ht2
  have hpend : t.status = .pending := by
    rcases hst2 with h | h
    · exact h
    · exact absurd h hstat
  refine
    { queue_ok := hinv.queue_ok, ps_ok := ?_, run_ok := hinv.run_ok,
      completed_ok := hinv.completed_ok,
      running_status := hinv.running_status,
      queue_ids_nodup := hinv.queue_ids_nodup, queue_disj := ?_,
      ps_run_disj := ?_, ps_nodup := nodup_insertSet hinv.ps_nodup,
      run_nodup := hinv.run_nodup,
      dependents_nodup := hinv.dependents_nodup, dep_ok := hinv.dep_ok,
      dependents_some := hinv.dependents_some,
      fresh_none := ?_, holding_ok := ?_, ps_retry := ?_,
      run_retry := hinv.run_retry, pending_invoc := hinv.pending_invoc,
      invoc_bound := hinv.invoc_bound, invoc_none := hinv.invoc_none }
  · intro j hj
    rcases mem_insertSet.mp hj with rfl | hj2
    · exact ⟨t, ht, hst2, hdep2⟩
    · exact hinv.ps_ok j hj2
  · intro j hj
    obtain ⟨h1, h2⟩ := hinv.queue_disj j hj
    refine ⟨?_, h2⟩
    intro hj2
    rcases mem_insertSet.mp hj2 with rfl | hj3
    · exact hnq hj
    · exact h1 hj3
  · intro j hj
    rcases mem_insertSet.mp hj with rfl | hj2
    · exact hnr
    · exact hinv.ps_run_disj j hj2
  · intro j hj
    obtain ⟨h1, h2, h3, h4⟩ := hinv.fresh_none j hj
    refine ⟨h1, ?_, h3, h4⟩
    intro hj2
    rcases mem_insertSet.mp hj2 with rfl | hj3
    · rw [hj] at ht
      exact Option.noConfusion ht
    · exact h2 hj3
  · intro p2 i2 hpi
    exact absurd hpi (by simp)
  · intro j hj u hu
    rcases mem_insertSet.mp hj with rfl | hj2
    · rw [ht] at hu
      injection hu with hu
      subst hu
      exact hpay2 hpend
    · exact hinv.ps_retry j hj2 u hu

/-- Appending one ready entry for an unplaced PENDING task preserves the
invariant. -/
theorem sInv_enqueue {s : Sched} {k : Nat} (p0 : Nat) {t : Task} (hinv : SInv s)
    (ht : s.tasks k = some t) (hpend : t.status = .pending)
    (hdeps : ∀ d ∈ t.dependencies, d ∈ s.completed)
    (hnq : k ∉ s.queue.map Prod.snd) (hnps : k ∉ s.pendingStarts)
    (hnr : k ∉ s.running)
    (hhold : ∀ p i, s.pc = .holding p i → i ≠ k) :
    SInv { s with queue := s.queue ++ [(p0, k)] } := by
  refine
    { queue_ok := ?_, ps_ok := hinv.ps_ok, run_ok := hinv.run_ok,
      completed_ok := hinv.completed_ok,
      running_status := hinv.running_status,
      queue_ids_nodup := ?_, queue_disj := ?_,
      ps_run_disj := hinv.ps_run_disj, ps_nodup := hinv.ps_nodup,
      run_nodup := hinv.run_nodup,
      dependents_nodup := hinv.dependents_nodup, dep_ok := hinv.dep_ok,
      dependents_some := hinv.dependents_some,
      fresh_none := ?_, holding_ok := ?_, ps_retry := hinv.ps_retry,
      run_retry := hinv.run_retry, pending_invoc := hinv.pending_invoc,
      invoc_bound := hinv.invoc_bound, invoc_none := hinv.invoc_none }
  · intro e he
    rcases List.mem_append.mp he with he2 | he2
    · exact hinv.queue_ok e he2
    · rw [List.mem_singleton] at he2
      subst he2
      exact ⟨t, ht, Or.inl hpend, hdeps⟩
  · rw [List.map_append]
    refine List.Nodup.append hinv.queue_ids_nodup (by simp) ?_
    intro a ha hb
    simp only [List.map_cons, List.map_nil, List.mem_singleton] at hb
    subst hb
    exact hnq ha
  · intro j hj
    rw [List.map_append, List.mem_append] at hj
    rcases hj with hj2 | hj2
    · exact hinv.queue_disj j hj2
    · simp only [List.map_cons, List.map_nil, List.mem_singleton] at hj2
      subst hj2
      exact ⟨hnps, hnr⟩
  · intro j hj
    obtain ⟨h1, h2, h3, h4⟩ := hinv.fresh_none j hj
    refine ⟨?_, h2, h3, h4⟩
    intro hm
    rw [List.map_append, List.mem_append] at hm
    rcases hm with hm2 | hm2
    · exact h1 hm2
    · simp only [List.map_cons, List.map_nil, List.mem_singleton] at hm2
      subst hm2
      rw [ht] at hj
      exact Option.noConfusion hj
  · intro p i hpi
    obtain ⟨hex, hq2, hps2, hr2⟩ := hinv.holding_ok p i hpi
    refine ⟨hex, ?_, hps2, hr2⟩
    intro hm
    rw [List.map_append, List.mem_append] at hm
    rcases hm with hm2 | hm2
    · exact hq2 hm2
    · simp only [List.map_cons, List.map_nil, List.mem_singleton] at hm2
      exact hhold p i hpi hm2

/-- Appending a list of ready entries for pairwise distinct, unplaced
PENDING tasks preserves the invariant. -/
theorem sInv_enqueue_list {s : Sched} :
    ∀ {L : List (Nat × Nat)}, SInv s → (L.map Prod.snd).Nodup →
    (∀ e ∈ L, (∃ t, s.tasks e.2 = some t ∧ t.status = .pending ∧
        ∀ d ∈ t.dependencies, d ∈ s.completed) ∧
      e.2 ∉ s.queue.map Prod.snd ∧ e.2 ∉ s.pendingStarts ∧
      e.2 ∉ s.running ∧ ∀ p i, s.pc = .holding p i → i ≠ e.2) →
    SInv { s with queue := s.queue ++ L } := by
  intro L
  induction L generalizing s with
  | nil =>
      intro hinv _ _
      have h : s.queue ++ [] = s.queue := List.append_nil _
      rw [h]
      exact hinv
  | cons e L2 ih =>
      intro hinv hnd hall
      obtain ⟨⟨t, ht, hpend, hdeps⟩, hnq, hnps, hnr, hhold⟩ :=
        hall e (List.mem_cons_self _ _)
      have hinv2 := sInv_enqueue e.1 hinv ht hpend hdeps hnq hnps hnr hhold
      rw [List.map_cons, List.nodup_cons] at hnd
      obtain ⟨hne, hnd2⟩ := hnd
      have hstep := ih hinv2 hnd2 ?_
      · have h : (s.queue ++ [(e.1, e.2)]) ++ L2 = s.queue ++ (e :: L2) := by
          rw [List.append_assoc]
          rfl
        rw [← h]
        exact hstep
      · intro e2 he2
        obtain ⟨hex2, hnq2, hnps2, hnr2, hhold2⟩ :=
          hall e2 (List.mem_cons_of_mem _ he2)
        refine ⟨hex2, ?_, hnps2, hnr2, hhold2⟩
        intro hm
        rw [List.map_append, List.mem_append] at hm
        rcases hm with hm2 | hm2
        · exact hnq2 hm2
        · simp only [List.map_cons, List.map_nil, List.mem_singleton] at hm2
          exact hne (by rw [← hm2]; exact List.mem_map.mpr ⟨e2, he2, rfl⟩)

/-- Storing a fresh task (default status and retry count) preserves the
invariant. -/
theorem sInv_store {s : Sched} {t : Task} (hinv : SInv s)
    (hst : t.status = .pending) (hrc : t.retryCount = 0)
    (hfresh : s.tasks t.id = none) : SInv (storeTask s t) := by
  obtain ⟨hfq, hfps, hfr, hfc⟩ := hinv.fresh_none t.id hfresh
  have hinv0 := hinv.invoc_none t.id hfresh
  have hlook : ∀ j, j ≠ t.id →
      (storeTask s t).tasks j = s.tasks j := by
    intro j hj
    exact Function.update_noteq hj _ _
  have hlookt : (storeTask s t).tasks t.id = some t :=
    Function.update_same _ _ _
  refine
    { queue_ok := ?_, ps_ok := ?_, run_ok := ?_, completed_ok := ?_,
      running_status := ?_, queue_ids_nodup := hinv.queue_ids_nodup,
      queue_disj := hinv.queue_disj, ps_run_disj := hinv.ps_run_disj,
      ps_nodup := hinv.ps_nodup, run_nodup := hinv.run_nodup,
      dependents_nodup := ?_, dep_ok := ?_, dependents_some := ?_,
      fresh_none := ?_, holding_ok := ?_, ps_retry := ?_,
      run_retry := ?_, pending_invoc := ?_, invoc_bound := ?_,
      invoc_none := ?_ }
  · intro e he
    obtain ⟨u, hu, hstu, hdepu⟩ := hinv.queue_ok e he
    have hne : e.2 ≠ t.id := by
      intro heq
      exact hfq (heq ▸ List.mem_map.mpr ⟨e, he, rfl⟩)
    exact ⟨u, by rw [hlook e.2 hne]; exact hu, hstu, hdepu⟩
  · intro j hj
    obtain ⟨u, hu, hstu, hdepu⟩ := hinv.ps_ok j hj
    have hne : j ≠ t.id := fun heq => hfps (heq ▸ hj)
    exact ⟨u, by rw [hlook j hne]; exact hu, hstu, hdepu⟩
  · intro j hj
    obtain ⟨u, hu, hstu, hdepu⟩ := hinv.run_ok j hj
    have hne : j ≠ t.id := fun heq => hfr (heq ▸ hj)
    exact ⟨u, by rw [hlook j hne]; exact hu, hstu, hdepu⟩
  · intro d hd
    obtain ⟨u, hu, hstu⟩ := hinv.completed_ok d hd
    have hne : d ≠ t.id := fun heq => hfc (heq ▸ hd)
    exact ⟨u, by rw [hlook d hne]; exact hu, hstu⟩
  · intro j u hu hst2
    by_cases hj : j = t.id
    · subst hj
      rw [hlookt] at hu
      injection hu with hu
      subst hu
      rw [hst] at hst2
      exact absurd hst2 (by simp)
    · rw [hlook j hj] at hu
      exact hinv.running_status j u hu hst2
  · intro d
    show (if d ∈ t.dependencies then insertSet t.id (s.dependents d)
      else s.dependents d).Nodup
    split
    · exact nodup_insertSet (hinv.dependents_nodup d)
    · exact hinv.dependents_nodup d
  · intro d j hj u hu
    revert hj
    show j ∈ (if d ∈ t.dependencies then insertSet t.id (s.dependents d)
      else s.dependents d) → d ∈ u.dependencies
    split
    · intro hj
      rcases mem_insertSet.mp hj with rfl | hj2
      · rw [hlookt] at hu
        injection hu with hu
        subst hu
        assumption
      · have hne : j ≠ t.id := by
          intro heq
          exact hinv.dependents_some d j hj2 (heq ▸ hfresh)
        rw [hlook j hne] at hu
        exact hinv.dep_ok d j hj2 u hu
    · intro hj
      have hne : j ≠ t.id := by
        intro heq
        exact hinv.dependents_some d j hj (heq ▸ hfresh)
      rw [hlook j hne] at hu
      exact hinv.dep_ok d j hj u hu
  · intro d j hj
    by_cases hje : j = t.id
    · subst hje
      rw [hlookt]
      exact fun h => Option.noConfusion h
    · rw [hlook j hje]
      revert hj
      show j ∈ (if d ∈ t.dependencies then insertSet t.id (s.dependents d)
        else s.dependents d) → s.tasks j ≠ none
      split
      · intro hj
        rcases mem_insertSet.mp hj with rfl | hj2
        · exact absurd rfl hje
        · exact hinv.dependents_some d j hj2
      · intro hj
        exact hinv.dependents_some d j hj
  · intro j hj
    have hne : j ≠ t.id := by
      intro heq
      rw [heq, hlookt] at hj
      exact Option.noConfusion hj
    rw [hlook j hne] at hj
    exact hinv.fresh_none j hj
  · intro p i hpi
    obtain ⟨⟨u, hu, hstu, hdepu, hpayu⟩, hq2, hps2, hr2⟩ :=
      hinv.holding_ok p i hpi
    have hne : i ≠ t.id := by
      intro heq
      rw [heq, hfresh] at hu
      exact Option.noConfusion hu
    exact ⟨⟨u, by rw [hlook i hne]; exact hu, hstu, hdepu, hpayu⟩,
      hq2, hps2, hr2⟩
  · intro j hj u hu
    have hne : j ≠ t.id := fun heq => hfps (heq ▸ hj)
    rw [hlook j hne] at hu
    exact hinv.ps_retry j hj u hu
  · intro j hj u hu
    have hne : j ≠ t.id := fun heq => hfr (heq ▸ hj)
    rw [hlook j hne] at hu
    exact hinv.run_retry j hj u hu
  · intro j u hu _
    by_cases hj : j = t.id
    · subst hj
      rw [hlookt] at hu
      injection hu with hu
      subst hu
      refine ⟨?_, ?_⟩
      · show s.invoc t.id = t.retryCount
        rw [hinv0, hrc]
      · rw [hrc]
        omega
    · rw [hlook j hj] at hu
      exact hinv.pending_invoc j u hu (by assumption)
  · intro j u hu
    by_cases hj : j = t.id
    · subst hj
      rw [hlookt] at hu
      injection hu with hu
      subst hu
      show s.invoc t.id ≤ max 1 t.maxRetries
      rw [hinv0]
      omega
    · rw [hlook j hj] at hu
      exact hinv.invoc_bound j u hu
  · intro j hj
    have hne : j ≠ t.id := by
      intro heq
      rw [heq, hlookt] at hj
      exact Option.noConfusion hj
    rw [hlook j hne] at hj
    exact hinv.invoc_none j hj

/-- `add_task` with a fresh id preserves the invariant. -/
theorem sInv_add {s : Sched} {t : Task} (hinv : SInv s)
    (hst : t.status = .pending) (hrc : t.retryCount = 0)
    (hfresh : s.tasks t.id = none) : SInv (addTask s t) := by
  obtain ⟨hfq, hfps, hfr, hfc⟩ := hinv.fresh_none t.id hfresh
  have hstore := sInv_store hinv hst hrc hfresh
  show SInv (if canExecute (storeTask s t) t then
    { storeTask s t with
        queue := (storeTask s t).queue ++ [(t.priority, t.id)] }
    else storeTask s t)
  by_cases hce : canExecute (storeTask s t) t = true
  · rw [if_pos hce]
    refine sInv_enqueue t.priority hstore (Function.update_same _ _ _) hst ?_
      hfq hfps hfr ?_
    · intro d hd
      unfold canExecute at hce
      rw [List.all_eq_true] at hce
      have := hce d hd
      rw [decide_eq_true_eq] at this
      exact this
    · intro p i hpi heq
      obtain ⟨⟨u, hu, _⟩, _⟩ := hinv.holding_ok p i hpi
      rw [heq, hfresh] at hu
      exact Option.noConfusion hu
  · rw [if_neg hce]
    exact hstore

/-- The synchronous prefix of a spawned execution preserves the
invariant. -/
theorem sInv_start {s : Sched} {i : Nat} (hinv : SInv s)
    (hi : i ∈ s.pendingStarts) : SInv (startRun s i) := by
  obtain ⟨t, ht, hst, hdeps⟩ := hinv.ps_ok i hi
  have hretry := hinv.ps_retry i hi t ht
  have hnr : i ∉ s.running := hinv.ps_run_disj i hi
  have hnq : i ∉ s.queue.map Prod.snd := fun hq => (hinv.queue_disj i hq).1 hi
  have hic : i ∉ s.completed := by
    intro hc
    obtain ⟨u, hu, hucomp⟩ := hinv.completed_ok i hc
    rw [ht] at hu
    injection hu with hu
    subst hu
    rcases hst with h | h <;> rw [hucomp] at h <;> exact TaskStatus.noConfusion h
  have hlook : ∀ j, j ≠ i → (startRun s i).tasks j = s.tasks j := by
    intro j hj
    exact Function.update_noteq hj _ _
  have hlookt : (startRun s i).tasks i = some { t with status := .running } := by
    show Function.update s.tasks i
      ((s.tasks i).map (fun u => { u with status := TaskStatus.running })) i =
      _
    rw [Function.update_same, ht]
    rfl
  have hinvl : ∀ j, j ≠ i → (startRun s i).invoc j = s.invoc j := by
    intro j hj
    exact Function.update_noteq hj _ _
  have hinvt : (startRun s i).invoc i = s.invoc i + 1 :=
    Function.update_same _ _ _
  refine
    { queue_ok := ?_, ps_ok := ?_, run_ok := ?_, completed_ok := ?_,
      running_status := ?_, queue_ids_nodup := hinv.queue_ids_nodup,
      queue_disj := ?_, ps_run_disj := ?_,
      ps_nodup := hinv.ps_nodup.erase i,
      run_nodup := nodup_insertSet hinv.run_nodup,
      dependents_nodup := hinv.dependents_nodup, dep_ok := ?_,
      dependents_some := ?_, fresh_none := ?_, holding_ok := ?_,
      ps_retry := ?_, run_retry := ?_, pending_invoc := ?_,
      invoc_bound := ?_, invoc_none := ?_ }
  · intro e he
    obtain ⟨u, hu, hstu, hdepu⟩ := hinv.queue_ok e he
    have hne : e.2 ≠ i := by
      intro heq
      exact hnq (heq ▸ List.mem_map.mpr ⟨e, he, rfl⟩)
    exact ⟨u, by rw [hlook e.2 hne]; exact hu, hstu, hdepu⟩
  · intro j hj
    have hj2 : j ∈ s.pendingStarts ∧ j ≠ i := by
      have := (hinv.ps_nodup.mem_erase_iff).mp hj
      exact ⟨this.2, this.1⟩
    obtain ⟨u, hu, hstu, hdepu⟩ := hinv.ps_ok j hj2.1
    exact ⟨u, by rw [hlook j hj2.2]; exact hu, hstu, hdepu⟩
  · intro j hj
    rcases mem_insertSet.mp hj with rfl | hj2
    · exact ⟨{ t with status := .running }, hlookt, rfl, hdeps⟩
    · obtain ⟨u, hu, hstu, hdepu⟩ := hinv.run_ok j hj2
      have hne : j ≠ i := fun heq => hnr (heq ▸ hj2)
      exact ⟨u, by rw [hlook j hne]; exact hu, hstu, hdepu⟩
  · intro d hd
    obtain ⟨u, hu, hstu⟩ := hinv.completed_ok d hd
    have hne : d ≠ i := fun heq => hic (heq ▸ hd)
    exact ⟨u, by rw [hlook d hne]; exact hu, hstu⟩
  · intro j u hu hst2
    by_cases hj : j = i
    · subst hj
      exact mem_insertSet.mpr (Or.inl rfl)
    · rw [hlook j hj] at hu
      exact mem_insertSet.mpr (Or.inr (hinv.running_status j u hu hst2))
  · intro j hj
    obtain ⟨h1, h2⟩ := hinv.queue_disj j hj
    have hne : j ≠ i := fun heq => hnq (heq ▸ hj)
    refine ⟨?_, ?_⟩
    · intro hm
      exact h1 ((s.pendingStarts.erase_sublist i).mem hm)
    · intro hm
      rcases mem_insertSet.mp hm with heq | hm2
      · exact hne heq
      · exact h2 hm2
  · intro j hj
    have hj2 := (hinv.ps_nodup.mem_erase_iff).mp hj
    intro hm
    rcases mem_insertSet.mp hm with heq | hm2
    · exact hj2.1 heq
    · exact hinv.ps_run_disj j hj2.2 hm2
  · intro d j hj u hu
    by_cases hje : j = i
    · subst hje
      rw [hlookt] at hu
      injection hu with hu
      subst hu
      exact hinv.dep_ok d j hj t ht
    · rw [hlook j hje] at hu
      exact hinv.dep_ok d j hj u hu
  · intro d j hj
    by_cases hje : j = i
    · subst hje
      rw [hlookt]
      exact fun h => Option.noConfusion h
    · rw [hlook j hje]
      exact hinv.dependents_some d j hj
  · intro j hj
    have hne : j ≠ i := by
      intro heq
      rw [heq, hlookt] at hj
      exact Option.noConfusion hj
    rw [hlook j hne] at hj
    obtain ⟨h1, h2, h3, h4⟩ := hinv.fresh_none j hj
    refine ⟨h1, ?_, ?_, h4⟩
    · intro hm
      exact h2 ((s.pendingStarts.erase_sublist i).mem hm)
    · intro hm
      rcases mem_insertSet.mp hm with heq | hm2
      · exact hne heq
      · exact h3 hm2
  · intro p i2 hpi
    obtain ⟨⟨u, hu, hstu, hdepu, hpayu⟩, hq2, hps2, hr2⟩ :=
      hinv.holding_ok p i2 hpi
    have hne : i2 ≠ i := fun heq => hps2 (heq ▸ hi)
    refine ⟨⟨u, by rw [hlook i2 hne]; exact hu, hstu, hdepu, ?_⟩, hq2, ?_, ?_⟩
    · intro hp
      rw [hinvl i2 hne]
      exact hpayu hp
    · intro hm
      exact hps2 ((s.pendingStarts.erase_sublist i).mem hm)
    · intro hm
      rcases mem_insertSet.mp hm with heq | hm2
      · exact hne heq
      · exact hr2 hm2
  · intro j hj u hu
    have hj2 := (hinv.ps_nodup.mem_erase_iff).mp hj
    rw [hlook j hj2.1] at hu
    rw [hinvl j hj2.1]
    exact hinv.ps_retry j hj2.2 u hu
  · intro j hj u hu
    rcases mem_insertSet.mp hj with rfl | hj2
    · rw [hlookt] at hu
      injection hu with hu
      subst hu
      rw [hinvt]
      exact ⟨by rw [hretry.1], hretry.2⟩
    · have hne : j ≠ i := fun heq => hnr (heq ▸ hj2)
      rw [hlook j hne] at hu
      rw [hinvl j hne]
      exact hinv.run_retry j hj2 u hu
  · intro j u hu hp
    by_cases hj : j = i
    · subst hj
      rw [hlookt] at hu
      injection hu with hu
      subst hu
      exact absurd hp (by simp)
    · rw [hlook j hj] at hu
      rw [hinvl j hj]
      exact hinv.pending_invoc j u hu hp
  · intro j u hu
    by_cases hj : j = i
    · rw [hj] at hu ⊢
      rw [hlookt] at hu
      injection hu with hu
      subst hu
      rw [hinvt]
      show s.invoc i + 1 ≤ max 1 t.maxRetries
      have h1 := hretry.1
      have h2 := hretry.2
      omega
    · rw [hlook j hj] at hu
      rw [hinvl j hj]
      exact hinv.invoc_bound j u hu
  · intro j hj
    have hne : j ≠ i := by
      intro heq
      rw [heq, hlookt] at hj
      exact Option.noConfusion hj
    rw [hlook j hne] at hj
    rw [hinvl j hne]
    exact hinv.invoc_none j hj

theorem cancelTask_none {s : Sched} {i : Nat} (h : s.tasks i = none) :
    cancelTask s i = (s, false) := by
  unfold cancelTask
  rw [h]

theorem cancelTask_some {s : Sched} {i : Nat} {t : Task}
    (h : s.tasks i = some t) :
    cancelTask s i =
      if t.status = .pending then
        ({ s with
            tasks := Function.update s.tasks i
              (some { t with status := .cancelled }) }, true)
      else if i ∈ s.futures then
        ({ s with
            tasks := Function.update s.tasks i
              (some { t with status := .cancelled }),
            running := s.running.erase i,
            pendingStarts := s.pendingStarts.erase i }, true)
      else (s, false) := by
  unfold cancelTask
  rw [h]

/-- `cancel_task` on a task that is not in the completed-set preserves
the invariant. -/
theorem sInv_cancel {s : Sched} {i : Nat} (hinv : SInv s)
    (hic : i ∉ s.completed) : SInv (cancelTask s i).1 := by
  cases ht : s.tasks i with
  | none =>
      rw [cancelTask_none ht]
      exact hinv
  | some t =>
      rw [cancelTask_some ht]
      have hlookt : Function.update s.tasks i
          (some { t with status := TaskStatus.cancelled }) i =
          some { t with status := .cancelled } := Function.update_same _ _ _
      have hlook : ∀ j, j ≠ i → Function.update s.tasks i
          (some { t with status := TaskStatus.cancelled }) j = s.tasks j :=
        fun j hj => Function.update_noteq hj _ _
      have hqok : ∀ e ∈ s.queue, ∃ u,
          Function.update s.tasks i
            (some { t with status := TaskStatus.cancelled }) e.2 = some u ∧
          (u.status = .pending ∨ u.status = .cancelled) ∧
          ∀ d ∈ u.dependencies, d ∈ s.completed := by
        intro e he
        obtain ⟨u, hu, hstu, hdepu⟩ := hinv.queue_ok e he
        by_cases hje : e.2 = i
        · rw [hje, ht] at hu
          injection hu with hu
          subst hu
          exact ⟨{ t with status := .cancelled }, by rw [hje]; exact hlookt,
            Or.inr rfl, hdepu⟩
        · exact ⟨u, (hlook e.2 hje).trans hu, hstu, hdepu⟩
      have hdepok : ∀ d j, j ∈ s.dependents d → ∀ u,
          Function.update s.tasks i
            (some { t with status := TaskStatus.cancelled }) j = some u →
          d ∈ u.dependencies := by
        intro d j hj u hu
        by_cases hje : j = i
        · rw [hje] at hu
          have hu2 := Eq.trans hlookt.symm hu
          injection hu2 with hu2
          subst hu2
          exact hinv.dep_ok d j hj t (by rw [hje]; exact ht)
        · rw [hlook j hje] at hu
          exact hinv.dep_ok d j hj u hu
      have hdepsome : ∀ d j, j ∈ s.dependents d →
          Function.update s.tasks i
            (some { t with status := TaskStatus.cancelled }) j ≠ none := by
        intro d j hj
        by_cases hje : j = i
        · rw [hje, hlookt]
          exact fun h => Option.noConfusion h
        · rw [hlook j hje]
          exact hinv.dependents_some d j hj
      have hcompok : ∀ d ∈ s.completed, ∃ u,
          Function.update s.tasks i
            (some { t with status := TaskStatus.cancelled }) d = some u ∧
          u.status = .completed := by
        intro d hd
        obtain ⟨u, hu, hstu⟩ := hinv.completed_ok d hd
        have hne : d ≠ i := fun heq => hic (heq ▸ hd)
        exact ⟨u, (hlook d hne).trans hu, hstu⟩
      have hfresh : ∀ j, Function.update s.tasks i
          (some { t with status := TaskStatus.cancelled }) j = none →
          j ∉ s.queue.map Prod.snd ∧ j ∉ s.pendingStarts ∧ j ∉ s.running ∧
          j ∉ s.completed := by
        intro j hj
        have hne : j ≠ i := by
          intro heq
          rw [heq, hlookt] at hj
          exact Option.noConfusion hj
        rw [hlook j hne] at hj
        exact hinv.fresh_none j hj
      have hinvbd : ∀ j u, Function.update s.tasks i
          (some { t with status := TaskStatus.cancelled }) j = some u →
          s.invoc j ≤ max 1 u.maxRetries := by
        intro j u hu
        by_cases hje : j = i
        · rw [hje] at hu
          have hu2 := Eq.trans hlookt.symm hu
          injection hu2 with hu2
          subst hu2
          show s.invoc j ≤ max 1 t.maxRetries
          rw [hje]
          exact hinv.invoc_bound i t ht
        · rw [hlook j hje] at hu
          exact hinv.invoc_bound j u hu
      have hinvnone : ∀ j, Function.update s.tasks i
          (some { t with status := TaskStatus.cancelled }) j = none →
          s.invoc j = 0 := by
        intro j hj
        have hne : j ≠ i := by
          intro heq
          rw [heq, hlookt] at hj
          exact Option.noConfusion hj
        rw [hlook j hne] at hj
        exact hinv.invoc_none j hj
      have hpendinv : ∀ j u, Function.update s.tasks i
          (some { t with status := TaskStatus.cancelled }) j = some u →
          u.status = .pending →
          s.invoc j = u.retryCount ∧ u.retryCount < max 1 u.maxRetries := by
        intro j u hu hp2
        by_cases hje : j = i
        · rw [hje] at hu
          have hu2 := Eq.trans hlookt.symm hu
          injection hu2 with hu2
          subst hu2
          exact absurd hp2 (by simp)
        · rw [hlook j hje] at hu
          exact hinv.pending_invoc j u hu hp2
      by_cases hp : t.status = .pending
      · rw [if_pos hp]
        have hnr : i ∉ s.running := by
          intro hr
          obtain ⟨u, hu, hurun, _⟩ := hinv.run_ok i hr
          rw [ht] at hu
          injection hu with hu
          subst hu
          rw [hp] at hurun
          exact TaskStatus.noConfusion hurun
        refine
          { queue_ok := hqok, ps_ok := ?_, run_ok := ?_,
            completed_ok := hcompok,
            running_status := ?_,
            queue_ids_nodup := hinv.queue_ids_nodup,
            queue_disj := hinv.queue_disj,
            ps_run_disj := hinv.ps_run_disj, ps_nodup := hinv.ps_nodup,
            run_nodup := hinv.run_nodup,
            dependents_nodup := hinv.dependents_nodup, dep_ok := hdepok,
            dependents_some := hdepsome, fresh_none := hfresh,
            holding_ok := ?_, ps_retry := ?_, run_retry := ?_,
            pending_invoc := hpendinv, invoc_bound := hinvbd,
            invoc_none := hinvnone }
        · intro j hj
          obtain ⟨u, hu, hstu, hdepu⟩ := hinv.ps_ok j hj
          by_cases hje : j = i
          · rw [hje, ht] at hu
            injection hu with hu
            subst hu
            exact ⟨{ t with status := .cancelled }, by rw [hje]; exact hlookt,
              Or.inr rfl, hdepu⟩
          · exact ⟨u, (hlook j hje).trans hu, hstu, hdepu⟩
        · intro j hj
          have hne : j ≠ i := fun heq => hnr (heq ▸ hj)
          obtain ⟨u, hu, hstu, hdepu⟩ := hinv.run_ok j hj
          exact ⟨u, (hlook j hne).trans hu, hstu, hdepu⟩
        · intro j u hu hst2
          by_cases hje : j = i
          · rw [hje] at hu
            have hu2 := Eq.trans hlookt.symm hu
            injection hu2 with hu2
            subst hu2
            exact absurd hst2 (by simp)
          · exact hinv.running_status j u ((hlook j hje).symm.trans hu) hst2
        · intro p i2 hpi
          obtain ⟨⟨u, hu, hstu, hdepu, hpayu⟩, hq2, hps2, hr2⟩ :=
            hinv.holding_ok p i2 hpi
          by_cases hje : i2 = i
          · rw [hje, ht] at hu
            injection hu with hu
            subst hu
            exact ⟨⟨{ t with status := .cancelled }, by rw [hje]; exact hlookt,
              Or.inr rfl, hdepu, fun hcon => absurd hcon (by simp)⟩,
              hq2, hps2, hr2⟩
          · exact ⟨⟨u, (hlook i2 hje).trans hu, hstu, hdepu, hpayu⟩,
              hq2, hps2, hr2⟩
        · intro j hj u hu
          by_cases hje : j = i
          · rw [hje] at hu
            have hu2 := Eq.trans hlookt.symm hu
            injection hu2 with hu2
            subst hu2
            show s.invoc j = t.retryCount ∧ t.retryCount < max 1 t.maxRetries
            rw [hje]
            exact hinv.ps_retry i (hje ▸ hj) t ht
          · exact hinv.ps_retry j hj u ((hlook j hje).symm.trans hu)
        · intro j hj u hu
          have hne : j ≠ i := fun heq => hnr (heq ▸ hj)
          exact hinv.run_retry j hj u ((hlook j hne).symm.trans hu)
      · rw [if_neg hp]
        by_cases hf : i ∈ s.futures
        · rw [if_pos hf]
          refine
            { queue_ok := hqok, ps_ok := ?_, run_ok := ?_,
              completed_ok := hcompok,
              running_status := ?_,
              queue_ids_nodup := hinv.queue_ids_nodup, queue_disj := ?_,
              ps_run_disj := ?_, ps_nodup := hinv.ps_nodup.erase i,
              run_nodup := hinv.run_nodup.erase i,
              dependents_nodup := hinv.dependents_nodup, dep_ok := hdepok,
              dependents_some := hdepsome, fresh_none := ?_,
              holding_ok := ?_, ps_retry := ?_, run_retry := ?_,
              pending_invoc := hpendinv, invoc_bound := hinvbd,
              invoc_none := hinvnone }
          · intro j hj
            have hj2 := (hinv.ps_nodup.mem_erase_iff).mp hj
            obtain ⟨u, hu, hstu, hdepu⟩ := hinv.ps_ok j hj2.2
            exact ⟨u, (hlook j hj2.1).trans hu, hstu, hdepu⟩
          · intro j hj
            have hj2 := (hinv.run_nodup.mem_erase_iff).mp hj
            obtain ⟨u, hu, hstu, hdepu⟩ := hinv.run_ok j hj2.2
            exact ⟨u, (hlook j hj2.1).trans hu, hstu, hdepu⟩
          · intro j u hu hst2
            by_cases hje : j = i
            · rw [hje] at hu
              have hu2 := Eq.trans hlookt.symm hu
              injection hu2 with hu2
              subst hu2
              exact absurd hst2 (by simp)
            · have hmem := hinv.running_status j u
                ((hlook j hje).symm.trans hu) hst2
              exact erase_mem_of_ne hmem hje
          · intro j hj
            obtain ⟨h1, h2⟩ := hinv.queue_disj j hj
            exact ⟨fun hm => h1 ((s.pendingStarts.erase_sublist i).mem hm),
              fun hm => h2 ((s.running.erase_sublist i).mem hm)⟩
          · intro j hj
            have hj2 := (hinv.ps_nodup.mem_erase_iff).mp hj
            intro hm
            exact hinv.ps_run_disj j hj2.2 ((s.running.erase_sublist i).mem hm)
          · intro j hj
            obtain ⟨h1, h2, h3, h4⟩ := hfresh j hj
            exact ⟨h1, fun hm => h2 ((s.pendingStarts.erase_sublist i).mem hm),
              fun hm => h3 ((s.running.erase_sublist i).mem hm), h4⟩
          · intro p i2 hpi
            obtain ⟨⟨u, hu, hstu, hdepu, hpayu⟩, hq2, hps2, hr2⟩ :=
              hinv.holding_ok p i2 hpi
            by_cases hje : i2 = i
            · rw [hje, ht] at hu
              injection hu with hu
              subst hu
              exact ⟨⟨{ t with status := .cancelled },
                by rw [hje]; exact hlookt,
                Or.inr rfl, hdepu, fun hcon => absurd hcon (by simp)⟩,
                hq2, fun hm => hps2 ((s.pendingStarts.erase_sublist i).mem hm),
                fun hm => hr2 ((s.running.erase_sublist i).mem hm)⟩
            · exact ⟨⟨u, (hlook i2 hje).trans hu, hstu, hdepu, hpayu⟩,
                hq2, fun hm => hps2 ((s.pendingStarts.erase_sublist i).mem hm),
                fun hm => hr2 ((s.running.erase_sublist i).mem hm)⟩
          · intro j hj u hu
            have hj2 := (hinv.ps_nodup.mem_erase_iff).mp hj
            exact hinv.ps_retry j hj2.2 u ((hlook j hj2.1).symm.trans hu)
          · intro j hj u hu
            have hj2 := (hinv.run_nodup.mem_erase_iff).mp hj
            exact hinv.run_retry j hj2.2 u ((hlook j hj2.1).symm.trans hu)
        · rw [if_neg hf]
          exact hinv

theorem canExecute_iff {s : Sched} {t : Task} :
    canExecute s t = true ↔ ∀ d ∈ t.dependencies, d ∈ s.completed := by
  unfold canExecute
  rw [List.all_eq_true]
  constructor
  · intro h d hd
    have := h d hd
    rwa [decide_eq_true_eq] at this
  · intro h d hd
    rw [decide_eq_true_eq]
    exact h d hd

theorem finishRun_okEq {s : Sched} {i : Nat} {t : Task} {v : Nat}
    (h : s.tasks i = some t) :
    finishRun s i (.ok v) =
      { s with
        tasks := Function.update s.tasks i
          (some { t with status := .completed, result := some v }),
        running := s.running.erase i,
        completed := insertSet i s.completed,
        queue := s.queue ++ readyDependents
          { s with
            tasks := Function.update s.tasks i
              (some { t with status := .completed, result := some v }),
            running := s.running.erase i,
            completed := insertSet i s.completed } i } := by
  unfold finishRun
  rw [h]

theorem finishRun_timedOutEq {s : Sched} {i : Nat} {t : Task}
    (h : s.tasks i = some t) :
    finishRun s i .timedOut =
      { s with
        tasks := Function.update s.tasks i
          (some { t with status := .timeout,
                         error := some (timeoutMsg t.timeout) }),
        running := s.running.erase i } := by
  unfold finishRun
  rw [h]

theorem finishRun_errEq {s : Sched} {i : Nat} {t : Task} {m : String}
    (h : s.tasks i = some t) :
    finishRun s i (.err m) =
      if t.retryCount + 1 < t.maxRetries then
        { s with
          tasks := Function.update s.tasks i
            (some { t with status := .pending, error := some m,
                           retryCount := t.retryCount + 1 }),
          running := s.running.erase i,
          queue := s.queue ++ [(t.priority, i)] }
      else
        { s with
          tasks := Function.update s.tasks i
            (some { t with status := .failed, error := some m,
                           retryCount := t.retryCount + 1 }),
          running := s.running.erase i } := by
  unfold finishRun
  rw [h]

/-- A mid-state invariant shared by the non-success completions of an
in-flight task: the task record is rewritten (with dependencies and
`max_retries` unchanged) and the id leaves the running set. -/
theorem sInv_finish_rewrite {s : Sched} {i : Nat} {t : Task} (u2 : Task)
    (hinv : SInv s) (hi : i ∈ s.running) (ht : s.tasks i = some t)
    (hdeps2 : u2.dependencies = t.dependencies)
    (hmaxr : u2.maxRetries = t.maxRetries)
    (hnotrun : u2.status ≠ .running) (hnotcomp : u2.status ≠ .completed)
    (hpend2 : u2.status = .pending →
      s.invoc i = u2.retryCount ∧ u2.retryCount < max 1 u2.maxRetries)
    (hbound2 : s.invoc i ≤ max 1 u2.maxRetries) :
    SInv { s with
      tasks := Function.update s.tasks i (some u2),
      running := s.running.erase i } := by
  obtain ⟨t0, ht0, htrun, hdeps⟩ := hinv.run_ok i hi
  rw [ht] at ht0
  injection ht0 with ht0
  subst ht0
  have hnq : i ∉ s.queue.map Prod.snd := fun hq => (hinv.queue_disj i hq).2 hi
  have hnps : i ∉ s.pendingStarts := fun hp => hinv.ps_run_disj i hp hi
  have hic : i ∉ s.completed := by
    intro hc
    obtain ⟨u, hu, hucomp⟩ := hinv.completed_ok i hc
    rw [ht] at hu
    injection hu with hu
    subst hu
    rw [htrun] at hucomp
    exact TaskStatus.noConfusion hucomp
  have hlookt : Function.update s.tasks i (some u2) i = some u2 :=
    Function.update_same _ _ _
  have hlook : ∀ j, j ≠ i →
      Function.update s.tasks i (some u2) j = s.tasks j :=
    fun j hj => Function.update_noteq hj _ _
  refine
    { queue_ok := ?_, ps_ok := ?_, run_ok := ?_, completed_ok := ?_,
      running_status := ?_, queue_ids_nodup := hinv.queue_ids_nodup,
      queue_disj := ?_, ps_run_disj := ?_, ps_nodup := hinv.ps_nodup,
      run_nodup := hinv.run_nodup.erase i,
      dependents_nodup := hinv.dependents_nodup, dep_ok := ?_,
      dependents_some := ?_, fresh_none := ?_, holding_ok := ?_,
      ps_retry := ?_, run_retry := ?_, pending_invoc := ?_,
      invoc_bound := ?_, invoc_none := ?_ }
  · intro e he
    obtain ⟨u, hu, hstu, hdepu⟩ := hinv.queue_ok e he
    have hne : e.2 ≠ i := by
      intro heq
      exact hnq (heq ▸ List.mem_map.mpr ⟨e, he, rfl⟩)
    exact ⟨u, (hlook e.2 hne).trans hu, hstu, hdepu⟩
  · intro j hj
    have hne : j ≠ i := fun heq => hnps (heq ▸ hj)
    obtain ⟨u, hu, hstu, hdepu⟩ := hinv.ps_ok j hj
    exact ⟨u, (hlook j hne).trans hu, hstu, hdepu⟩
  · intro j hj
    have hj2 := (hinv.run_nodup.mem_erase_iff).mp hj
    obtain ⟨u, hu, hstu, hdepu⟩ := hinv.run_ok j hj2.2
    exact ⟨u, (hlook j hj2.1).trans hu, hstu, hdepu⟩
  · intro d hd
    have hne : d ≠ i := fun heq => hic (heq ▸ hd)
    obtain ⟨u, hu, hstu⟩ := hinv.completed_ok d hd
    exact ⟨u, (hlook d hne).trans hu, hstu⟩
  · intro j u hu hst2
    by_cases hje : j = i
    · rw [hje] at hu
      have hu2 := Eq.trans hlookt.symm hu
      injection hu2 with hu2
      subst hu2
      exact absurd hst2 hnotrun
    · have hmem := hinv.running_status j u ((hlook j hje).symm.trans hu) hst2
      exact erase_mem_of_ne hmem hje
  · intro j hj
    obtain ⟨h1, h2⟩ := hinv.queue_disj j hj
    exact ⟨h1, fun hm => h2 ((s.running.erase_sublist i).mem hm)⟩
  · intro j hj hm
    exact hinv.ps_run_disj j hj ((s.running.erase_sublist i).mem hm)
  · intro d j hj u hu
    by_cases hje : j = i
    · rw [hje] at hu
      have hu2 := Eq.trans hlookt.symm hu
      injection hu2 with hu2
      subst hu2
      rw [hdeps2]
      exact hinv.dep_ok d j hj t (by rw [hje]; exact ht)
    · exact hinv.dep_ok d j hj u ((hlook j hje).symm.trans hu)
  · intro d j hj
    by_cases hje : j = i
    · rw [hje]
      intro hcon
      exact Option.noConfusion (hlookt.symm.trans hcon)
    · intro hcon
      exact hinv.dependents_some d j hj ((hlook j hje).symm.trans hcon)
  · intro j hj
    have hne : j ≠ i := by
      intro heq
      rw [heq] at hj
      exact Option.noConfusion (hlookt.symm.trans hj)
    obtain ⟨h1, h2, h3, h4⟩ := hinv.fresh_none j ((hlook j hne).symm.trans hj)
    exact ⟨h1, h2, fun hm => h3 ((s.running.erase_sublist i).mem hm), h4⟩
  · intro p i2 hpi
    obtain ⟨⟨u, hu, hstu, hdepu, hpayu⟩, hq2, hps2, hr2⟩ :=
      hinv.holding_ok p i2 hpi
    have hne : i2 ≠ i := fun heq => hr2 (heq ▸ hi)
    exact ⟨⟨u, (hlook i2 hne).trans hu, hstu, hdepu, hpayu⟩, hq2, hps2,
      fun hm => hr2 ((s.running.erase_sublist i).mem hm)⟩
  · intro j hj u hu
    have hne : j ≠ i := fun heq => hnps (heq ▸ hj)
    exact hinv.ps_retry j hj u ((hlook j hne).symm.trans hu)
  · intro j hj u hu
    have hj2 := (hinv.run_nodup.mem_erase_iff).mp hj
    exact hinv.run_retry j hj2.2 u ((hlook j hj2.1).symm.trans hu)
  · intro j u hu hp2
    by_cases hje : j = i
    · rw [hje] at hu
      have hu2 := Eq.trans hlookt.symm hu
      injection hu2 with hu2
      subst hu2
      show s.invoc j = u2.retryCount ∧ u2.retryCount < max 1 u2.maxRetries
      rw [hje]
      exact hpend2 hp2
    · exact hinv.pending_invoc j u ((hlook j hje).symm.trans hu) hp2
  · intro j u hu
    by_cases hje : j = i
    · rw [hje] at hu
      have hu2 := Eq.trans hlookt.symm hu
      injection hu2 with hu2
      subst hu2
      show s.invoc j ≤ max 1 u2.maxRetries
      rw [hje]
      exact hbound2
    · exact hinv.invoc_bound j u ((hlook j hje).symm.trans hu)
  · intro j hj
    have hne : j ≠ i := by
      intro heq
      rw [heq] at hj
      exact Option.noConfusion (hlookt.symm.trans hj)
    exact hinv.invoc_none j ((hlook j hne).symm.trans hj)

/-- The successful completion of an in-flight task, before dependents are
enqueued, preserves the invariant. -/
theorem sInv_finish_okMid {s : Sched} {i : Nat} {t : Task} (v : Nat)
    (hinv : SInv s) (hi : i ∈ s.running) (ht : s.tasks i = some t) :
    SInv { s with
      tasks := Function.update s.tasks i
        (some { t with status := .completed, result := some v }),
      running := s.running.erase i,
      completed := insertSet i s.completed } := by
  obtain ⟨t0, ht0, htrun, hdeps⟩ := hinv.run_ok i hi
  rw [ht] at ht0
  injection ht0 with ht0
  subst ht0
  have hnq : i ∉ s.queue.map Prod.snd := fun hq => (hinv.queue_disj i hq).2 hi
  have hnps : i ∉ s.pendingStarts := fun hp => hinv.ps_run_disj i hp hi
  have hic : i ∉ s.completed := by
    intro hc
    obtain ⟨u, hu, hucomp⟩ := hinv.completed_ok i hc
    rw [ht] at hu
    injection hu with hu
    subst hu
    rw [htrun] at hucomp
    exact TaskStatus.noConfusion hucomp
  have hlookt : Function.update s.tasks i
      (some { t with status := TaskStatus.completed, result := some v }) i =
      some { t with status := .completed, result := some v } :=
    Function.update_same _ _ _
  have hlook : ∀ j, j ≠ i → Function.update s.tasks i
      (some { t with status := TaskStatus.completed, result := some v }) j =
      s.tasks j := fun j hj => Function.update_noteq hj _ _
  refine
    { queue_ok := ?_, ps_ok := ?_, run_ok := ?_, completed_ok := ?_,
      running_status := ?_, queue_ids_nodup := hinv.queue_ids_nodup,
      queue_disj := ?_, ps_run_disj := ?_, ps_nodup := hinv.ps_nodup,
      run_nodup := hinv.run_nodup.erase i,
      dependents_nodup := hinv.dependents_nodup, dep_ok := ?_,
      dependents_some := ?_, fresh_none := ?_, holding_ok := ?_,
      ps_retry := ?_, run_retry := ?_, pending_invoc := ?_,
      invoc_bound := ?_, invoc_none := ?_ }
  · intro e he
    obtain ⟨u, hu, hstu, hdepu⟩ := hinv.queue_ok e he
    have hne : e.2 ≠ i := by
      intro heq
      exact hnq (heq ▸ List.mem_map.mpr ⟨e, he, rfl⟩)
    exact ⟨u, (hlook e.2 hne).trans hu, hstu,
      fun d hd => mem_insertSet.mpr (Or.inr (hdepu d hd))⟩
  · intro j hj
    have hne : j ≠ i := fun heq => hnps (heq ▸ hj)
    obtain ⟨u, hu, hstu, hdepu⟩ := hinv.ps_ok j hj
    exact ⟨u, (hlook j hne).trans hu, hstu,
      fun d hd => mem_insertSet.mpr (Or.inr (hdepu d hd))⟩
  · intro j hj
    have hj2 := (hinv.run_nodup.mem_erase_iff).mp hj
    obtain ⟨u, hu, hstu, hdepu⟩ := hinv.run_ok j hj2.2
    exact ⟨u, (hlook j hj2.1).trans hu, hstu,
      fun d hd => mem_insertSet.mpr (Or.inr (hdepu d hd))⟩
  · intro d hd
    rcases mem_insertSet.mp hd with rfl | hd2
    · exact ⟨{ t with status := .completed, result := some v }, hlookt, rfl⟩
    · have hne : d ≠ i := fun heq => hic (heq ▸ hd2)
      obtain ⟨u, hu, hstu⟩ := hinv.completed_ok d hd2
      exact ⟨u, (hlook d hne).trans hu, hstu⟩
  · intro j u hu hst2
    by_cases hje : j = i
    · rw [hje] at hu
      have hu2 := Eq.trans hlookt.symm hu
      injection hu2 with hu2
      subst hu2
      exact absurd hst2 (by simp)
    · have hmem := hinv.running_status j u ((hlook j hje).symm.trans hu) hst2
      exact erase_mem_of_ne hmem hje
  · intro j hj
    obtain ⟨h1, h2⟩ := hinv.queue_disj j hj
    exact ⟨h1, fun hm => h2 ((s.running.erase_sublist i).mem hm)⟩
  · intro j hj hm
    exact hinv.ps_run_disj j hj ((s.running.erase_sublist i).mem hm)
  · intro d j hj u hu
    by_cases hje : j = i
    · rw [hje] at hu
      have hu2 := Eq.trans hlookt.symm hu
      injection hu2 with hu2
      subst hu2
      exact hinv.dep_ok d j hj t (by rw [hje]; exact ht)
    · exact hinv.dep_ok d j hj u ((hlook j hje).symm.trans hu)
  · intro d j hj
    by_cases hje : j = i
    · rw [hje]
      intro hcon
      exact Option.noConfusion (hlookt.symm.trans hcon)
    · intro hcon
      exact hinv.dependents_some d j hj ((hlook j hje).symm.trans hcon)
  · intro j hj
    have hne : j ≠ i := by
      intro heq
      rw [heq] at hj
      exact Option.noConfusion (hlookt.symm.trans hj)
    obtain ⟨h1, h2, h3, h4⟩ := hinv.fresh_none j ((hlook j hne).symm.trans hj)
    refine ⟨h1, h2, fun hm => h3 ((s.running.erase_sublist i).mem hm), ?_⟩
    intro hm
    rcases mem_insertSet.mp hm with heq | hm2
    · exact hne heq
    · exact h4 hm2
  · intro p i2 hpi
    obtain ⟨⟨u, hu, hstu, hdepu, hpayu⟩, hq2, hps2, hr2⟩ :=
      hinv.holding_ok p i2 hpi
    have hne : i2 ≠ i := fun heq => hr2 (heq ▸ hi)
    exact ⟨⟨u, (hlook i2 hne).trans hu, hstu,
      fun d hd => mem_insertSet.mpr (Or.inr (hdepu d hd)), hpayu⟩,
      hq2, hps2, fun hm => hr2 ((s.running.erase_sublist i).mem hm)⟩
  · intro j hj u hu
    have hne : j ≠ i := fun heq => hnps (heq ▸ hj)
    exact hinv.ps_retry j hj u ((hlook j hne).symm.trans hu)
  · intro j hj u hu
    have hj2 := (hinv.run_nodup.mem_erase_iff).mp hj
    exact hinv.run_retry j hj2.2 u ((hlook j hj2.1).symm.trans hu)
  · intro j u hu hp2
    by_cases hje : j = i
    · rw [hje] at hu
      have hu2 := Eq.trans hlookt.symm hu
      injection hu2 with hu2
      subst hu2
      exact absurd hp2 (by simp)
    · exact hinv.pending_invoc j u ((hlook j hje).symm.trans hu) hp2
  · intro j u hu
    by_cases hje : j = i
    · rw [hje] at hu
      have hu2 := Eq.trans hlookt.symm hu
      injection hu2 with hu2
      subst hu2
      show s.invoc j ≤ max 1 t.maxRetries
      rw [hje]
      exact hinv.invoc_bound i t ht
    · exact hinv.invoc_bound j u ((hlook j hje).symm.trans hu)
  · intro j hj
    have hne : j ≠ i := by
      intro heq
      rw [heq] at hj
      exact Option.noConfusion (hlookt.symm.trans hj)
    exact hinv.invoc_none j ((hlook j hne).symm.trans hj)

/-- Completing an in-flight execution, with any outcome, preserves the
invariant. -/
theorem sInv_finish {s : Sched} {i : Nat} (hinv : SInv s) (hi : i ∈ s.running)
    (o : Outcome) : SInv (finishRun s i o) := by
  obtain ⟨t, ht, htrun, hdeps⟩ := hinv.run_ok i hi
  have hretry := hinv.run_retry i hi t ht
  have hnq : i ∉ s.queue.map Prod.snd := fun hq => (hinv.queue_disj i hq).2 hi
  have hnps : i ∉ s.pendingStarts := fun hp => hinv.ps_run_disj i hp hi
  have hic : i ∉ s.completed := by
    intro hc
    obtain ⟨u, hu, hucomp⟩ := hinv.completed_ok i hc
    rw [ht] at hu
    injection hu with hu
    subst hu
    rw [htrun] at hucomp
    exact TaskStatus.noConfusion hucomp
  cases o with
  | timedOut =>
      rw [finishRun_timedOutEq ht]
      exact sInv_finish_rewrite
        { t with status := .timeout, error := some (timeoutMsg t.timeout) }
        hinv hi ht rfl rfl (fun h => nomatch h)
        (fun h => nomatch h) (fun hp => nomatch hp) (hinv.invoc_bound i t ht)
  | err m =>
      rw [finishRun_errEq ht]
      by_cases hrc : t.retryCount + 1 < t.maxRetries
      · rw [if_pos hrc]
        have hmid := sInv_finish_rewrite
          { t with status := .pending, error := some m,
                   retryCount := t.retryCount + 1 }
          hinv hi ht rfl rfl (fun h => nomatch h) (fun h => nomatch h)
          (fun _ => ⟨hretry.1, by
            show t.retryCount + 1 < max 1 t.maxRetries
            omega⟩)
          (hinv.invoc_bound i t ht)
        refine sInv_enqueue t.priority hmid (Function.update_same _ _ _) rfl
          hdeps hnq hnps ?_ ?_
        · intro hm
          exact (hinv.run_nodup.mem_erase_iff.mp hm).1 rfl
        · intro p i2 hpi heq
          obtain ⟨_, _, _, hr2⟩ := hinv.holding_ok p i2 hpi
          exact hr2 (heq ▸ hi)
      · rw [if_neg hrc]
        refine sInv_finish_rewrite
          { t with status := .failed, error := some m,
                   retryCount := t.retryCount + 1 }
          hinv hi ht rfl rfl (fun h => nomatch h) (fun h => nomatch h)
          (fun hp => nomatch hp) ?_
        show s.invoc i ≤ max 1 t.maxRetries
        exact hinv.invoc_bound i t ht
  | ok v =>
      rw [finishRun_okEq ht]
      have hmid := sInv_finish_okMid v hinv hi ht
      have hlookM : ∀ j, j ≠ i → Function.update s.tasks i
          (some { t with status := TaskStatus.completed, result := some v })
            j = s.tasks j := fun j hj => Function.update_noteq hj _ _
      refine sInv_enqueue_list hmid
        (readyDependents_snd_nodup (hinv.dependents_nodup i)) ?_
      intro e he
      obtain ⟨hkdep, tk, htk, hpri, hpendk, hcan⟩ := mem_readyDependents he
      have hki : e.2 ≠ i := by
        intro heq
        rw [heq] at htk
        have h2 := Eq.trans (Function.update_same i
          (some { t with status := TaskStatus.completed, result := some v })
          s.tasks).symm htk
        injection h2 with h2
        rw [← h2] at hpendk
        exact nomatch hpendk
      have hsk : s.tasks e.2 = some tk := (hlookM e.2 hki).symm.trans htk
      have hideps : i ∈ tk.dependencies := hinv.dep_ok i e.2 hkdep tk hsk
      refine ⟨⟨tk, htk, hpendk, canExecute_iff.mp hcan⟩, ?_, ?_, ?_, ?_⟩
      · intro hm
        obtain ⟨e3, he3, he3q⟩ := List.mem_map.mp hm
        obtain ⟨u, hu, _, hdepu⟩ := hinv.queue_ok e3 he3
        rw [he3q, hsk] at hu
        injection hu with hu
        subst hu
        exact hic (hdepu i hideps)
      · intro hm
        obtain ⟨u, hu, _, hdepu⟩ := hinv.ps_ok e.2 hm
        rw [hsk] at hu
        injection hu with hu
        subst hu
        exact hic (hdepu i hideps)
      · intro hm
        have hm2 := (s.running.erase_sublist i).mem hm
        obtain ⟨u, hu, _, hdepu⟩ := hinv.run_ok e.2 hm2
        rw [hsk] at hu
        injection hu with hu
        subst hu
        exact hic (hdepu i hideps)
      · intro p i2 hpi heq2
        obtain ⟨⟨u, hu, _, hdepu, _⟩, _⟩ := hinv.holding_ok p i2 hpi
        rw [heq2, hsk] at hu
        injection hu with hu
        subst hu
        exact hic (hdepu i hideps)

/-- Every strict-mode step preserves the invariant. -/
theorem sInv_step {exec : Nat → Nat → Outcome} {allowAdd : Nat → Prop}
    {s s2 : Sched} (hinv : SInv s) (hstep : Step exec true allowAdd s s2) :
    SInv s2 := by
  cases hstep with
  | add t hst hrc hal hfresh => exact sInv_add hinv hst hrc (hfresh rfl)
  | gate hpc hlt => exact sInv_pc_only _ hinv (fun p i h => nomatch h)
  | popTimeout hpc => exact sInv_pc_only _ hinv (fun p i h => nomatch h)
  | pop e q' hpc hps hpop => exact sInv_pop hinv hps hpop
  | skip p i hpc hskip => exact sInv_pc_only _ hinv (fun p2 i2 h => nomatch h)
  | spawn p i t hpc ht hnc hstat => exact sInv_spawn hinv hpc ht hnc hstat
  | start i hi => exact sInv_start hinv hi
  | finish i hi => exact sInv_finish hinv hi _
  | cancel i hstrict => exact sInv_cancel hinv (hstrict rfl)
  | clear hstrict => exact Bool.noConfusion hstrict

/-- Every state reachable from a fresh queue under strict usage satisfies
the invariant. -/
theorem sInv_reach {exec : Nat → Nat → Outcome} {allowAdd : Nat → Prop}
    {mc : Nat} {s : Sched} (h : Reach exec true allowAdd (init mc) s) :
    SInv s := by
  induction h with
  | refl => exact sInv_init mc
  | tail _ hstep ih => exact sInv_step ih hstep

/-! ### The permanently-blocked invariant (C10) -/

/-- `finishRun` on an id with no task record does nothing. -/
theorem finishRun_noneEq {s : Sched} {i : Nat} (h : s.tasks i = none)
    (o : Outcome) : finishRun s i o = s := by
  unfold finishRun
  rw [h]

/-- The situation right after `clear_completed` has removed a dependency
`d` of the still-stored task `tid`: `d` is unknown to the task map, the
completed-set, the spawned executions and the running set, while `tid` is
stored PENDING (or CANCELLED) with `d` among its dependencies and sits in
none of the ready queue, the spawned executions or the running set. -/
structure BlockedInv (d tid : Nat) (s : Sched) : Prop where
  dnone : s.tasks d = none
  dnc : d ∉ s.completed
  dnps : d ∉ s.pendingStarts
  dnr : d ∉ s.running
  blocked : ∃ t, s.tasks tid = some t ∧ d ∈ t.dependencies ∧
    (t.status = .pending ∨ t.status = .cancelled)
  tnq : tid ∉ s.queue.map Prod.snd
  tnps : tid ∉ s.pendingStarts
  tnr : tid ∉ s.running
  thold : ∀ p i, s.pc = .holding p i → i ≠ tid

/-- As long as neither `d` nor `tid` is re-added, every scheduler step
preserves the blocked situation: in particular `tid` keeps failing the
`_can_execute` check and is never enqueued again. -/
theorem blockedInv_step {exec : Nat → Nat → Outcome} {b : Bool}
    {d tid : Nat} {s s2 : Sched} (hinv : BlockedInv d tid s)
    (hstep : Step exec b (fun j => j ≠ d ∧ j ≠ tid) s s2) :
    BlockedInv d tid s2 := by
  obtain ⟨tb, htb, hdtb, hstb⟩ := hinv.blocked
  cases hstep with
  | add t hst hrc hal hfresh =>
      have hupd : ∀ j, j ≠ t.id → (storeTask s t).tasks j = s.tasks j :=
        fun j hj => Function.update_noteq hj _ _
      have base : BlockedInv d tid (storeTask s t) :=
        { dnone := (hupd d (fun h => hal.1 h.symm)).trans hinv.dnone,
          dnc := hinv.dnc, dnps := hinv.dnps, dnr := hinv.dnr,
          blocked := ⟨tb, (hupd tid (fun h => hal.2 h.symm)).trans htb,
            hdtb, hstb⟩,
          tnq := hinv.tnq, tnps := hinv.tnps, tnr := hinv.tnr,
          thold := hinv.thold }
      show BlockedInv d tid (if canExecute (storeTask s t) t then
        { storeTask s t with
            queue := (storeTask s t).queue ++ [(t.priority, t.id)] }
        else storeTask s t)
      by_cases hce : canExecute (storeTask s t) t = true
      · rw [if_pos hce]
        refine { base with tnq := ?_ }
        intro hm
        rw [List.map_append] at hm
        rcases List.mem_append.mp hm with hm | hm
        · exact hinv.tnq hm
        · simp at hm
          exact hal.2 hm.symm
      · rw [if_neg hce]
        exact base
  | gate hpc hlt =>
      exact { hinv with
        blocked := ⟨tb, htb, hdtb, hstb⟩,
        thold := fun p i h => nomatch h }
  | popTimeout hpc =>
      exact { hinv with
        blocked := ⟨tb, htb, hdtb, hstb⟩,
        thold := fun p i h => nomatch h }
  | pop e q' hpc hps hpop =>
      obtain ⟨hem, hq'⟩ := popMin_spec hpop
      subst hq'
      refine { hinv with
        blocked := ⟨tb, htb, hdtb, hstb⟩, tnq := ?_, thold := ?_ }
      · exact fun hm => hinv.tnq (mem_map_snd_erase hm)
      · intro p i h
        injection h with h1 h2
        subst h2
        intro heq
        exact hinv.tnq (heq ▸ List.mem_map.mpr ⟨e, hem, rfl⟩)
  | skip p i hpc hskip =>
      exact { hinv with
        blocked := ⟨tb, htb, hdtb, hstb⟩,
        thold := fun p2 i2 h => nomatch h }
  | spawn p i t hpc ht hnc hstat =>
      have hit : i ≠ tid := hinv.thold p i hpc
      have hid : i ≠ d := by
        intro heq
        rw [heq, hinv.dnone] at ht
        exact Option.noConfusion ht
      refine { hinv with
        blocked := ⟨tb, htb, hdtb, hstb⟩, dnps := ?_, tnps := ?_,
        thold := fun p2 i2 h => nomatch h }
      · intro hm
        rcases mem_insertSet.mp hm with heq | hm2
        · exact hid heq.symm
        · exact hinv.dnps hm2
      · intro hm
        rcases mem_insertSet.mp hm with heq | hm2
        · exact hit heq.symm
        · exact hinv.tnps hm2
  | start i hi =>
      have hit : i ≠ tid := fun heq => hinv.tnps (heq ▸ hi)
      have hid : i ≠ d := fun heq => hinv.dnps (heq ▸ hi)
      refine
        { dnone := (Function.update_noteq (fun h => hid h.symm) _ _).trans
            hinv.dnone,
          dnc := hinv.dnc,
          dnps := fun hm =>
            hinv.dnps ((s.pendingStarts.erase_sublist i).mem hm),
          dnr := ?_,
          blocked := ⟨tb,
            (Function.update_noteq (fun h => hit h.symm) _ _).trans htb,
            hdtb, hstb⟩,
          tnq := hinv.tnq,
          tnps := fun hm =>
            hinv.tnps ((s.pendingStarts.erase_sublist i).mem hm),
          tnr := ?_, thold := hinv.thold }
      · intro hm
        rcases mem_insertSet.mp hm with heq | hm2
        · exact hid heq.symm
        · exact hinv.dnr hm2
      · intro hm
        rcases mem_insertSet.mp hm with heq | hm2
        · exact hit heq.symm
        · exact hinv.tnr hm2
  | finish i hi =>
      have hit : i ≠ tid := fun heq => hinv.tnr (heq ▸ hi)
      have hid : i ≠ d := fun heq => hinv.dnr (heq ▸ hi)
      cases ht : s.tasks i with
      | none =>
          rw [finishRun_noneEq ht]
          exact { hinv with blocked := ⟨tb, htb, hdtb, hstb⟩ }
      | some t =>
          generalize exec i (s.invoc i - 1) = o
          cases o with
          | ok v =>
              rw [finishRun_okEq ht]
              refine { hinv with
                dnone := (Function.update_noteq (fun h => hid h.symm)
                  _ _).trans hinv.dnone,
                dnc := ?_,
                dnr := fun hm =>
                  hinv.dnr ((s.running.erase_sublist i).mem hm),
                blocked := ⟨tb, (Function.update_noteq
                  (fun h => hit h.symm) _ _).trans htb, hdtb, hstb⟩,
                tnq := ?_,
                tnr := fun hm =>
                  hinv.tnr ((s.running.erase_sublist i).mem hm) }
              · intro hm
                rcases mem_insertSet.mp hm with heq | hm2
                · exact hid heq.symm
                · exact hinv.dnc hm2
              · intro hm
                rw [List.map_append] at hm
                rcases List.mem_append.mp hm with hm | hm
                · exact hinv.tnq hm
                · obtain ⟨e, he, heq⟩ := List.mem_map.mp hm
                  obtain ⟨_, tk, htk, _, _, hcan⟩ := mem_readyDependents he
                  rw [heq] at htk
                  have htk2 : s.tasks tid = some tk :=
                    (Function.update_noteq (fun h => hit h.symm)
                      _ _).symm.trans htk
                  have h3 := htb.symm.trans htk2
                  injection h3 with h3
                  subst h3
                  have hdc := canExecute_iff.mp hcan d hdtb
                  rcases mem_insertSet.mp hdc with h4 | h4
                  · exact hid h4.symm
                  · exact hinv.dnc h4
          | err m =>
              rw [finishRun_errEq ht]
              by_cases hrc : t.retryCount + 1 < t.maxRetries
              · rw [if_pos hrc]
                refine { hinv with
                  dnone := (Function.update_noteq (fun h => hid h.symm)
                    _ _).trans hinv.dnone,
                  dnr := fun hm =>
                    hinv.dnr ((s.running.erase_sublist i).mem hm),
                  blocked := ⟨tb, (Function.update_noteq
                    (fun h => hit h.symm) _ _).trans htb, hdtb, hstb⟩,
                  tnq := ?_,
                  tnr := fun hm =>
                    hinv.tnr ((s.running.erase_sublist i).mem hm) }
                intro hm
                rw [List.map_append] at hm
                rcases List.mem_append.mp hm with hm | hm
                · exact hinv.tnq hm
                · simp at hm
                  exact hit hm.symm
              · rw [if_neg hrc]
                exact { hinv with
                  dnone := (Function.update_noteq (fun h => hid h.symm)
                    _ _).trans hinv.dnone,
                  dnr := fun hm =>
                    hinv.dnr ((s.running.erase_sublist i).mem hm),
                  blocked := ⟨tb, (Function.update_noteq
                    (fun h => hit h.symm) _ _).trans htb, hdtb, hstb⟩,
                  tnr := fun hm =>
                    hinv.tnr ((s.running.erase_sublist i).mem hm) }
          | timedOut =>
              rw [finishRun_timedOutEq ht]
              exact { hinv with
                dnone := (Function.update_noteq (fun h => hid h.symm)
                  _ _).trans hinv.dnone,
                dnr := fun hm =>
                  hinv.dnr ((s.running.erase_sublist i).mem hm),
                blocked := ⟨tb, (Function.update_noteq
                  (fun h => hit h.symm) _ _).trans htb, hdtb, hstb⟩,
                tnr := fun hm =>
                  hinv.tnr ((s.running.erase_sublist i).mem hm) }
  | cancel i hstrict =>
      cases ht : s.tasks i with
      | none =>
          rw [cancelTask_none ht]
          exact { hinv with blocked := ⟨tb, htb, hdtb, hstb⟩ }
      | some t =>
          rw [cancelTask_some ht]
          have hdi : d ≠ i := by
            intro heq
            rw [← heq, hinv.dnone] at ht
            exact Option.noConfusion ht
          by_cases hp : t.status = .pending
          · rw [if_pos hp]
            by_cases heq : i = tid
            · subst heq
              have h2 := htb.symm.trans ht
              injection h2 with h2
              subst h2
              exact { hinv with
                dnone := (Function.update_noteq hdi _ _).trans hinv.dnone,
                blocked := ⟨{ tb with status := .cancelled },
                  Function.update_same _ _ _, hdtb, Or.inr rfl⟩ }
            · exact { hinv with
                dnone := (Function.update_noteq hdi _ _).trans hinv.dnone,
                blocked := ⟨tb, (Function.update_noteq
                  (fun h => heq h.symm) _ _).trans htb, hdtb, hstb⟩ }
          · rw [if_neg hp]
            by_cases hf : i ∈ s.futures
            · rw [if_pos hf]
              by_cases heq : i = tid
              · subst heq
                have h2 := htb.symm.trans ht
                injection h2 with h2
                subst h2
                exact { hinv with
                  dnone := (Function.update_noteq hdi _ _).trans
                    hinv.dnone,
                  dnps := fun hm =>
                    hinv.dnps ((s.pendingStarts.erase_sublist i).mem hm),
                  dnr := fun hm =>
                    hinv.dnr ((s.running.erase_sublist i).mem hm),
                  blocked := ⟨{ tb with status := .cancelled },
                    Function.update_same _ _ _, hdtb, Or.inr rfl⟩,
                  tnps := fun hm =>
                    hinv.tnps ((s.pendingStarts.erase_sublist i).mem hm),
                  tnr := fun hm =>
                    hinv.tnr ((s.running.erase_sublist i).mem hm) }
              · exact { hinv with
                  dnone := (Function.update_noteq hdi _ _).trans
                    hinv.dnone,
                  dnps := fun hm =>
                    hinv.dnps ((s.pendingStarts.erase_sublist i).mem hm),
                  dnr := fun hm =>
                    hinv.dnr ((s.running.erase_sublist i).mem hm),
                  blocked := ⟨tb, (Function.update_noteq
                    (fun h => heq h.symm) _ _).trans htb, hdtb, hstb⟩,
                  tnps := fun hm =>
                    hinv.tnps ((s.pendingStarts.erase_sublist i).mem hm),
                  tnr := fun hm =>
                    hinv.tnr ((s.running.erase_sublist i).mem hm) }
            · rw [if_neg hf]
              exact { hinv with blocked := ⟨tb, htb, hdtb, hstb⟩ }
  | clear hstrict =>
      have htidnr : tid ∉ s.taskIds.filter (isCompletedId s) := by
        intro hm
        have h2 := (List.mem_filter.mp hm).2
        simp only [isCompletedId, htb] at h2
        rw [decide_eq_true_eq] at h2
        rcases hstb with h | h <;> rw [h] at h2 <;>
          exact TaskStatus.noConfusion h2
      refine
        { dnone := ?_, dnc := ?_, dnps := hinv.dnps, dnr := hinv.dnr,
          blocked := ?_, tnq := hinv.tnq, tnps := hinv.tnps,
          tnr := hinv.tnr, thold := hinv.thold }
      · show (if d ∈ s.taskIds.filter (isCompletedId s) then none
          else s.tasks d) = none
        by_cases hm : d ∈ s.taskIds.filter (isCompletedId s)
        · rw [if_pos hm]
        · rw [if_neg hm]
          exact hinv.dnone
      · intro hm
        exact hinv.dnc (List.mem_filter.mp hm).1
      · refine ⟨tb, ?_, hdtb, hstb⟩
        show (if tid ∈ s.taskIds.filter (isCompletedId s) then none
          else s.tasks tid) = some tb
        rw [if_neg htidnr]
        exact htb

/-- The blocked situation is preserved along any run that never re-adds
`d` or `tid`. -/
theorem blockedInv_reach {exec : Nat → Nat → Outcome} {b : Bool}
    {d tid : Nat} {s0 s : Sched} (h0 : BlockedInv d tid s0)
    (h : Reach exec b (fun j => j ≠ d ∧ j ≠ tid) s0 s) :
    BlockedInv d tid s := by
  induction h with
  | refl => exact h0
  | tail _ hstep ih => exact blockedInv_step ih hstep

/-- In a blocked state, the stored blocked task fails `_can_execute`. -/
theorem blockedInv_canExecute_false {d tid : Nat} {s : Sched}
    (hinv : BlockedInv d tid s) {t : Task} (ht : s.tasks tid = some t) :
    canExecute s t = false := by
  obtain ⟨tb, htb, hdtb, _⟩ := hinv.blocked
  have h2 := ht.symm.trans htb
  injection h2 with h2
  subst h2
  cases hce : canExecute s t
  · rfl
  · exact (hinv.dnc (canExecute_iff.mp hce d hdtb)).elim

/-! ### The remaining claim theorems (C1, C2, C10) -/

/-- C1 amended: dependency gating holds only under the full disciplined
usage that `strict = true` encodes — every `add_task` supplies a fresh
id, `cancel_task` is never called on an id in the completed-set, and
`clear_completed` is never called.  Under these three restrictions, in
every reachable state no task is RUNNING while one of its dependencies
has a status other than COMPLETED, and `add_task` on a task without
dependencies appends its `(priority, id)` entry to the ready queue
immediately.  Each restriction is load-bearing: a duplicate `add_task`
leaves a stale ready-queue entry through which the overwritten task runs
with a PENDING dependency (the gating counterexample); cancelling a
COMPLETED dependency flips it to CANCELLED through its lingering
`task_futures` entry while an already-enqueued dependent still runs; and
`clear_completed` erases the COMPLETED status a dependent was gated
on. -/
theorem dependency_gating {exec : Nat → Nat → Outcome}
    {allowAdd : Nat → Prop} {mc : Nat} {s : Sched}
    (h : Reach exec true allowAdd (init mc) s) :
    (∀ i t, s.tasks i = some t → t.status = .running →
      ∀ d ∈ t.dependencies, ∃ u, s.tasks d = some u ∧
        u.status = .completed) ∧
    (∀ t : Task, t.dependencies = [] →
      (addTask s t).queue = s.queue ++ [(t.priority, t.id)]) := by
  have hinv := sInv_reach h
  constructor
  · intro i t ht hst d hd
    have hi := hinv.running_status i t ht hst
    obtain ⟨u, hu, hurun, hdep⟩ := hinv.run_ok i hi
    rw [ht] at hu
    injection hu with hu
    subst hu
    exact hinv.completed_ok d (hdep d hd)
  · intro t hdeps
    have hce : canExecute (storeTask s t) t = true := by
      unfold canExecute
      rw [hdeps]
      rfl
    show (if canExecute (storeTask s t) t then
      { storeTask s t with
          queue := (storeTask s t).queue ++ [(t.priority, t.id)] }
      else storeTask s t).queue = s.queue ++ [(t.priority, t.id)]
    rw [if_pos hce]
    rfl

/-- Witness for C1: the gating statements evaluated along the concrete
strict trace in which task 0 is RUNNING. -/
theorem dependency_gating_witness :
    (∀ i t, a5.tasks i = some t → t.status = .running →
      ∀ d ∈ t.dependencies, ∃ u, a5.tasks d = some u ∧
        u.status = .completed) ∧
    (∀ t : Task, t.dependencies = [] →
      (addTask a5 t).queue = a5.queue ++ [(t.priority, t.id)]) :=
  dependency_gating reach_a5

/-- C2 amended: a task's executor is invoked at most
`max 1 max_retries` times in any reachable state — i.e. a repeatedly
failing task is retried at most `max_retries - 1` times after its first
attempt before becoming terminal FAILED, one fewer than the spec claims.
In the spec's scenario (`max_retries = 2`, executor raising on
invocations 1–2 and succeeding on the 3rd) the queue drains with the
task terminal FAILED, `retry_count = 2` and only two invocations made:
final status COMPLETED is never reached. -/
theorem retry_attempt_bound {exec : Nat → Nat → Outcome}
    {allowAdd : Nat → Prop} {mc : Nat} {s : Sched}
    (h : Reach exec true allowAdd (init mc) s) :
    (∀ i t, s.tasks i = some t → s.invoc i ≤ max 1 t.maxRetries) ∧
    tf.maxRetries = 2 ∧ execF2 0 0 = .err "boom" ∧
    execF2 0 1 = .err "boom" ∧ execF2 0 2 = .ok 7 ∧
    Reach execF2 true allowAll (init 1) f11 ∧
    f11.queue = [] ∧ f11.running = [] ∧ f11.pendingStarts = [] ∧
    (f11.tasks 0).map Task.status = some .failed ∧
    (f11.tasks 0).map Task.retryCount = some 2 ∧
    f11.invoc 0 = 2 := by
  have hinv := sInv_reach h
  exact ⟨fun i t ht => hinv.invoc_bound i t ht, rfl, rfl, rfl, rfl,
    reach_f11, by decide, by decide, by decide, by decide, by decide,
    by decide⟩

/-- Witness for C2: the invocation bound evaluated on the concrete
failing-retry trace. -/
theorem retry_attempt_bound_witness :
    (∀ i t, f11.tasks i = some t → f11.invoc i ≤ max 1 t.maxRetries) ∧
    tf.maxRetries = 2 ∧ execF2 0 0 = .err "boom" ∧
    execF2 0 1 = .err "boom" ∧ execF2 0 2 = .ok 7 ∧
    Reach execF2 true allowAll (init 1) f11 ∧
    f11.queue = [] ∧ f11.running = [] ∧ f11.pendingStarts = [] ∧
    (f11.tasks 0).map Task.status = some .failed ∧
    (f11.tasks 0).map Task.retryCount = some 2 ∧
    f11.invoc 0 = 2 :=
  retry_attempt_bound reach_f11

/-- C10 amended: `clear_completed` does remove every COMPLETED task from
both the task map and the completed-set consulted by `_can_execute`; and
a still-stored task with a cleared dependency stays out of the ready
queue, the spawned executions and the running set, and keeps failing the
readiness check, along every subsequent run that does not re-add the
cleared id or the blocked task's id.  The original "never enqueued by any
subsequent operation" is too strong: `clear_completed` leaves the
`dependents` index intact, so re-adding and re-completing the cleared ids
enqueues the supposedly blocked task again (see the clear
counterexample).  The final conjunct checks that the post-clear state of
that counterexample trace is exactly such a blocked situation
(`d = 0`, `tid = 1`). -/
theorem clear_completed_removal_and_blocking :
    (∀ (s : Sched) (i : Nat) (t : Task), s.tasks i = some t →
      t.status = .completed → i ∈ s.taskIds →
      (clearCompleted s).tasks i = none ∧
      i ∉ (clearCompleted s).completed) ∧
    (∀ (d tid : Nat) (exec : Nat → Nat → Outcome) (b : Bool)
      (s0 s : Sched), BlockedInv d tid s0 →
      Reach exec b (fun j => j ≠ d ∧ j ≠ tid) s0 s →
      tid ∉ s.queue.map Prod.snd ∧ tid ∉ s.pendingStarts ∧
      tid ∉ s.running ∧
      ∀ t, s.tasks tid = some t → canExecute s t = false) ∧
    BlockedInv 0 1 w8 := by
  refine ⟨?_, ?_, ?_⟩
  · intro s i t ht hst hids
    have hmem : i ∈ s.taskIds.filter (isCompletedId s) :=
      List.mem_filter.mpr ⟨hids, by simp [isCompletedId, ht, hst]⟩
    constructor
    · show (if i ∈ s.taskIds.filter (isCompletedId s) then none
        else s.tasks i) = none
      rw [if_pos hmem]
    · intro hm
      have h2 := (List.mem_filter.mp hm).2
      rw [decide_eq_true_eq] at h2
      exact h2 hmem
  · intro d tid exec b s0 s h0 hreach
    have hinv := blockedInv_reach h0 hreach
    exact ⟨hinv.tnq, hinv.tnps, hinv.tnr,
      fun t ht => blockedInv_canExecute_false hinv ht⟩
  · exact
      { dnone := by decide, dnc := by decide, dnps := by decide,
        dnr := by decide,
        blocked := ⟨tw1, by decide, by decide, Or.inl rfl⟩,
        tnq := by decide, tnps := by decide, tnr := by decide,
        thold := fun p i h =>
          nomatch (show w8.pc = DriverPC.top by decide).symm.trans h }

end Queue

end Cosik
